import Mathlib

/-!
Verification development for the cmdx command-snippet manager.

The store (src/store.rs) persists command records as files in a directory
tree rooted at a configured path.  We embed the relevant slice of the
filesystem as an inductive tree `FsNode` (directories with named children,
files with string contents) and translate each store operation from
src/store.rs on top of the syscall-level primitives it uses
(`fs::write`, `fs::create_dir_all`, `fs::remove_file`, `fs::rename`,
`fs::remove_dir`, `read_dir`).  Paths are segment lists obtained by
splitting the raw path string on the separator; OS-level path
normalization (duplicate separators, trailing separators, `..`
resolution) is not modelled — the store passes path strings through
unvalidated, which is exactly what the claims about validation examine.
-/

/-- A node of the store's on-disk tree: a regular file with its text
content, or a directory with an ordered list of named children
(association list; real directories never hold duplicate names). -/
inductive FsNode where
  | file (content : String)
  | dir (children : List (String × FsNode))
deriving Repr

/-- First child with the given name (directory lookup). -/
def lookupChild : List (String × FsNode) → String → Option FsNode
  | [], _ => none
  | (t, v) :: rest, s => if t = s then some v else lookupChild rest s

/-- Replace the entry named `s` (all occurrences, though real states have
no duplicates), or append it when absent — the effect of creating or
overwriting the name inside a directory. -/
def insertChild (cs : List (String × FsNode)) (s : String) (v : FsNode) : List (String × FsNode) :=
  if (lookupChild cs s).isSome then
    cs.map (fun e => if e.1 = s then (e.1, v) else e)
  else
    cs ++ [(s, v)]

/-- Delete the entry named `s` from a directory's children. -/
def eraseChild (cs : List (String × FsNode)) (s : String) : List (String × FsNode) :=
  cs.filter (fun e => e.1 != s)

/-- Resolve a segment path below a node (`none` when the path dangles,
including descending through a file). -/
def getNode : FsNode → List String → Option FsNode
  | n, [] => some n
  | .file _, _ :: _ => none
  | .dir cs, s :: rest =>
    match lookupChild cs s with
    | some c => getNode c rest
    | none => none

/-- Remove whatever lives at a (non-root) path; identity when the path
does not resolve.  Shared mutation core of `fs::remove_file`,
`fs::remove_dir` and the detach half of `fs::rename`. -/
def eraseAt : FsNode → List String → FsNode
  | n, [] => n
  | .file c, _ :: _ => .file c
  | .dir cs, [s] => .dir (eraseChild cs s)
  | .dir cs, s :: rest =>
    match lookupChild cs s with
    | some c => .dir (insertChild cs s (eraseAt c rest))
    | none => .dir cs

/-- Place node `v` at a (non-root) path whose parent exists as a
directory; identity otherwise.  Shared mutation core of `fs::write`,
directory creation and the attach half of `fs::rename`. -/
def setAt : FsNode → List String → FsNode → FsNode
  | n, [], _ => n
  | .file c, _ :: _, _ => .file c
  | .dir cs, [s], v => .dir (insertChild cs s v)
  | .dir cs, s :: rest, v =>
    match lookupChild cs s with
    | some c => .dir (insertChild cs s (setAt c rest v))
    | none => .dir cs

/-- Whether a node is a directory. -/
def FsNode.isDirNode : FsNode → Bool
  | .file _ => false
  | .dir _ => true

/-- `fs::create_dir_all`: create every missing directory along the path;
fails when a path component (or the path itself) exists as a file. -/
def createDirAll (n : FsNode) (p : List String) : Except Unit FsNode :=
  match p with
  | [] =>
    match n with
    | .dir _ => .ok n
    | .file _ => .error ()
  | s :: rest =>
    match n with
    | .file _ => .error ()
    | .dir cs =>
      match lookupChild cs s with
      | some c => (createDirAll c rest).map fun c' => FsNode.dir (insertChild cs s c')
      | none => (createDirAll (FsNode.dir []) rest).map fun c' => FsNode.dir (insertChild cs s c')

/-- `fs::write`: create or truncate-and-write the file at `p`.  Fails when
`p` is the root or an existing directory (EISDIR), when a parent is
missing (ENOENT) or when a path component is a file (ENOTDIR). -/
def fsWrite (n : FsNode) (p : List String) (content : String) : Except Unit FsNode :=
  match p with
  | [] => .error ()
  | s :: rest =>
    match getNode n ((s :: rest).dropLast) with
    | some (.dir cs) =>
      match lookupChild cs ((s :: rest).getLast (List.cons_ne_nil s rest)) with
      | some (.dir _) => .error ()
      | _ => .ok (setAt n (s :: rest) (.file content))
    | _ => .error ()

/-- `fs::remove_file`: unlink the file at `p`; fails when `p` does not
resolve to a regular file (the root directory path included). -/
def removeFileAt (n : FsNode) (p : List String) : Except Unit FsNode :=
  match p with
  | [] => .error ()
  | _ :: _ =>
    match getNode n p with
    | some (.file _) => .ok (eraseAt n p)
    | _ => .error ()

/-- `fs::rename` as used by the store: `src` must exist, `dst`'s parent
must be a directory.  The overwrite semantics of rename(2) for an
existing `dst` are unreachable here because `Store.rename` checks that
`dst` does not exist before calling it, so an existing `dst` entry is
simply replaced like rename(2) would replace a file. -/
def fsRename (n : FsNode) (src dst : List String) : Except Unit FsNode :=
  match src, dst with
  | [], _ => .error ()
  | _, [] => .error ()
  | _ :: _, _ :: _ =>
    match getNode n src with
    | none => .error ()
    | some m =>
      let n1 := eraseAt n src
      match getNode n1 dst.dropLast with
      | some (.dir _) => .ok (setAt n1 dst m)
      | _ => .error ()

/-- The typed errors of src/error.rs that the store-level claims mention.
`Io` stands for any propagated `std::io::Error` (its payload is not
inspected by the code under verification). -/
inductive CmdxError where
  | NotFound (path : String)
  | AlreadyExists (path : String)
  | InvalidPath (path : String)
  | InvalidFormat
  | NotInitialized
  | Io
deriving Repr, DecidableEq

/-- A stored record: src/command.rs `Command`. -/
structure Command where
  path : String
  command : String
  explanation : String
deriving Repr, DecidableEq

/-- `Command::new`. -/
def Command.new (path command explanation : String) : Command :=
  ⟨path, command, explanation⟩

/-- `Command::to_file_content`: `format!("{}\n{}\n", command, explanation)`. -/
def Command.to_file_content (c : Command) : String :=
  c.command ++ "\n" ++ c.explanation ++ "\n"

/-- Whitespace in the sense of Rust `char::is_whitespace`: the Unicode
White_Space property (UAX #44), i.e. the code points U+0009–U+000D,
U+0020, U+0085, U+00A0, U+1680, U+2000–U+200A, U+2028, U+2029, U+202F,
U+205F and U+3000. -/
def isWsChar (c : Char) : Bool :=
  c = '\t' || c = '\n' || c = '\x0b' || c = '\x0c' || c = '\r' || c = ' ' ||
  c = '\x85' || c = '\xa0' || c = '\u1680' ||
  ('\u2000' ≤ c && c ≤ '\u200a') ||
  c = '\u2028' || c = '\u2029' || c = '\u202f' || c = '\u205f' || c = '\u3000'

/-- Rust `str::trim` (leading and trailing whitespace removed). -/
def rustTrim (s : String) : String :=
  ⟨((s.data.dropWhile isWsChar).reverse.dropWhile isWsChar).reverse⟩

/-- The trailing carriage-return stripping `str::lines` performs on each
line. -/
def stripCr (l : List Char) : List Char :=
  match l.getLast? with
  | some '\r' => l.dropLast
  | _ => l

/-- Split a character list at every newline, keeping empty pieces
(n newlines produce n+1 pieces). -/
def splitAllNl : List Char → List (List Char)
  | [] => [[]]
  | '\n' :: rest => [] :: splitAllNl rest
  | c :: rest =>
    match splitAllNl rest with
    | [] => [[c]]
    | p :: ps => (c :: p) :: ps

/-- Rust `str::lines`: split on `'\n'`, drop a final empty piece (so a
trailing newline does not yield an extra line), strip a trailing `'\r'`
from each line. -/
def rustLines (s : String) : List String :=
  let ps := splitAllNl s.data
  let ps := if ps.getLast? = some [] then ps.dropLast else ps
  ps.map (fun l => ⟨stripCr l⟩)

/-- `Command::parse`: line 1 (trimmed) is the command and must be present
and non-empty, line 2 (trimmed) is the explanation and defaults to
empty. -/
def Command.parse (path content : String) : Except CmdxError Command :=
  match rustLines content with
  | [] => .error .InvalidFormat
  | l0 :: rest =>
    let command := rustTrim l0
    let explanation := (rest.head?.map rustTrim).getD ""
    if command = "" then .error .InvalidFormat
    else .ok ⟨path, command, explanation⟩

/-- `Command::from_file`: read the file at the resolved node and parse it.
Reading a directory fails with an I/O error (EISDIR). -/
def Command.from_file (path : String) (node : FsNode) : Except CmdxError Command :=
  match node with
  | .file content => Command.parse path content
  | .dir _ => .error .Io

/-- Segment splitting at `'/'`, keeping empty pieces (the semantics of
Rust's `split('/')`). -/
def splitPathAux : List Char → List (List Char)
  | [] => [[]]
  | '/' :: rest => [] :: splitPathAux rest
  | c :: rest =>
    match splitPathAux rest with
    | [] => [[c]]
    | p :: ps => (c :: p) :: ps

/-- `Store::command_path` resolves `root.join(path)`; splitting the raw
string on the separator yields the segment path below the root. -/
def splitPath (s : String) : List String :=
  (splitPathAux s.data).map (fun l => ⟨l⟩)

/-- `Store::get`: NotFound when nothing exists at the path, otherwise
read and parse the file there. -/
def Store.get (root : FsNode) (path : String) : Except CmdxError Command :=
  let p := splitPath path
  match getNode root p with
  | none => .error (.NotFound path)
  | some node => Command.from_file path node

/-- `Store::add`: AlreadyExists when something already exists at the
record's path and `overwrite` is false; otherwise create any missing
parent directories and write the encoded record. -/
def Store.add (root : FsNode) (cmd : Command) (overwrite : Bool) : Except CmdxError FsNode :=
  let p := splitPath cmd.path
  if (getNode root p).isSome && !overwrite then
    .error (.AlreadyExists cmd.path)
  else
    match createDirAll root p.dropLast with
    | .error _ => .error .Io
    | .ok root1 =>
      match fsWrite root1 p cmd.to_file_content with
      | .error _ => .error .Io
      | .ok root2 => .ok root2

/-- `Store::cleanup_empty_dirs`: starting at the removed entry's parent
and walking upward, delete each directory that is empty, stop at the
first non-empty directory; the root (segment path `[]`) is never
touched.  A missing ancestor is skipped (the Rust loop only acts when
`dir.exists() && dir.is_dir()`), continuing upward. -/
def cleanupFuel : Nat → FsNode → List String → FsNode
  | 0, root, _ => root
  | _ + 1, root, [] => root
  | fuel + 1, root, s :: rest =>
    match getNode root (s :: rest) with
    | some (.dir []) => cleanupFuel fuel (eraseAt root (s :: rest)) ((s :: rest).dropLast)
    | some (.dir (_ :: _)) => root
    | _ => cleanupFuel fuel root ((s :: rest).dropLast)

/-- The loop of `cleanup_empty_dirs` walks from the removed entry's
parent to the root, one parent per iteration, so it runs at most
`d.length` iterations; passing that bound as structural fuel makes the
recursion structural without changing the computed result. -/
def cleanupFrom (root : FsNode) (d : List String) : FsNode :=
  cleanupFuel d.length root d

/-- `Store::remove`: NotFound when nothing exists at the path, otherwise
unlink the file (an I/O error when the path is a directory) and prune
now-empty ancestors. -/
def Store.remove (root : FsNode) (path : String) : Except CmdxError FsNode :=
  let p := splitPath path
  if (getNode root p).isNone then
    .error (.NotFound path)
  else
    match removeFileAt root p with
    | .error _ => .error .Io
    | .ok root1 => .ok (cleanupFrom root1 p.dropLast)

/-- `Store::rename`: NotFound when `src` does not exist, AlreadyExists
when anything exists at `dst` (both checks precede any mutation);
otherwise create `dst`'s missing parents, move the entry and prune
`src`'s now-empty ancestors. -/
def Store.rename (root : FsNode) (src dst : String) : Except CmdxError FsNode :=
  let ps := splitPath src
  let pd := splitPath dst
  if (getNode root ps).isNone then
    .error (.NotFound src)
  else if (getNode root pd).isSome then
    .error (.AlreadyExists dst)
  else
    match createDirAll root pd.dropLast with
    | .error _ => .error .Io
    | .ok root1 =>
      match fsRename root1 ps pd with
      | .error _ => .error .Io
      | .ok root2 => .ok (cleanupFrom root2 ps.dropLast)

/-- The store state right after `Store::init` on a fresh location: an
empty root directory. -/
def Store.initState : FsNode := .dir []

/-- Whether a store-operation result is the `InvalidPath` error. -/
def isInvalidPathErr {α : Type} : Except CmdxError α → Bool
  | .error (.InvalidPath _) => true
  | _ => false

/-- Rust `str::contains("..")`: two consecutive dots occur somewhere. -/
def hasDotDot : List Char → Bool
  | '.' :: '.' :: _ => true
  | _ :: rest => hasDotDot rest
  | [] => false

/-- The path validation of the CLI `add` handler
(src/commands/add.rs): reject an empty path, a leading separator, or a
path containing the traversal sequence `..`. -/
def addPathRejected (path : String) : Bool :=
  path == "" || (match path.data with | '/' :: _ => true | _ => false) || hasDotDot path.data

/-- The destination validation of the CLI `mv` handler
(src/commands/mv.rs): same three checks as the `add` handler. -/
def mvDstRejected (dst : String) : Bool :=
  dst == "" || (match dst.data with | '/' :: _ => true | _ => false) || hasDotDot dst.data

/-- Modelled from the spec: the fuzzy matcher both call sites use comes
from the external `fuzzy_matcher` crate (`SkimMatcherV2`), whose source
is not part of this repository.  Spec section 4.2: an order-preserving,
case-insensitive subsequence match; no match when the subsequence
condition fails; on a match the score rewards contiguous runs and
penalizes gaps, with the exact weights an implementation choice.  This
greedy scorer matches the query left to right, adds 2 for a character
adjacent to the previous match, 1 otherwise, and subtracts 1 per skipped
haystack character. -/
def subseqScore : List Char → List Char → Bool → Int → Option Int
  | _, [], _, acc => some acc
  | [], _ :: _, _, _ => none
  | h :: hs, q :: qs, prev, acc =>
    if h.toLower = q.toLower then
      subseqScore hs qs true (acc + (if prev then 2 else 1))
    else
      subseqScore hs (q :: qs) false (acc - 1)

/-- Modelled from the spec: `fuzzy_match(haystack, query)` of section
4.2 (the `FuzzyMatcher::fuzzy_match` entry point of the external
crate). -/
def fuzzy_match (haystack query : String) : Option Int :=
  subseqScore haystack.data query.data false 0

/-- Stable descending sort on the score component, the observable
behavior of Rust's stable `sort_by(|a, b| b.1.cmp(&a.1))` at both call
sites (ties keep input order). -/
def insertScoreDesc {α : Type} (x : α × Int) : List (α × Int) → List (α × Int)
  | [] => [x]
  | y :: ys => if y.2 ≤ x.2 then x :: y :: ys else y :: insertScoreDesc x ys

/-- Stable descending sort by score (see `insertScoreDesc`). -/
def sortScoreDesc {α : Type} : List (α × Int) → List (α × Int)
  | [] => []
  | x :: xs => insertScoreDesc x (sortScoreDesc xs)

/-- `fuzzy_search` of src/commands/find.rs: concatenate the three fields
with single spaces into one haystack, score once, keep matches, sort by
descending score (stable). -/
def fuzzy_search (query : String) (commands : List Command) : List (Command × Int) :=
  let matchList := commands.filterMap (fun cmd =>
    let search_text := cmd.path ++ " " ++ cmd.command ++ " " ++ cmd.explanation
    (fuzzy_match search_text query).map (fun score => (cmd, score)))
  sortScoreDesc matchList

/-- `best_match` of src/commands/find.rs: head of `fuzzy_search`. -/
def best_match (query : String) (commands : List Command) : Option Command :=
  (fuzzy_search query commands).head?.map (·.1)

/-- The picker's modes (src/tui/app.rs `Mode`); `Normal` is the spec's
Browse, `Add`/`Edit`/`Delete` are CreateForm/EditForm/DeleteConfirm. -/
inductive Mode where
  | Normal
  | Add
  | Edit
  | Delete
  | Help
deriving Repr, DecidableEq

/-- The active form field (src/tui/app.rs `InputField`). -/
inductive InputField where
  | Path
  | Command
  | Description
deriving Repr, DecidableEq

/-- The picker session state (src/tui/app.rs `App`).  The `matcher` field
of the Rust struct is the stateless fuzzy matcher and is represented by
the `fuzzy_match` function. -/
structure App where
  input : String
  cursor_position : Nat
  commands : List Command
  filtered : List (Nat × Int)
  selected : Nat
  scroll_offset : Nat
  visible_height : Nat
  should_quit : Bool
  selected_command : Option Command
  mode : Mode
  form_path : String
  form_command : String
  form_description : String
  active_field : InputField
  message : Option (String × Bool)
  editing_original_path : Option String
deriving Repr

/-- `App::new`. -/
def App.new (commands : List Command) : App where
  input := ""
  cursor_position := 0
  commands := commands
  filtered := (List.range commands.length).map (fun i => (i, 0))
  selected := 0
  scroll_offset := 0
  visible_height := 10
  should_quit := false
  selected_command := none
  mode := .Normal
  form_path := ""
  form_command := ""
  form_description := ""
  active_field := .Path
  message := none
  editing_original_path := none

/-- `App::update_filter`: recompute `filtered` (all records with score 0
for an empty query, otherwise the per-field maximum score over path,
command and explanation, matches only, stably sorted by descending
score), reset `selected` to 0 when it is out of bounds of the new list,
and reset `scroll_offset` to 0. -/
def App.update_filter (a : App) : App :=
  let filtered :=
    if a.input.isEmpty then
      (List.range a.commands.length).map (fun i => (i, (0 : Int)))
    else
      let query := a.input
      let scored := a.commands.enum.filterMap (fun (idx, cmd) =>
        let path_score := fuzzy_match cmd.path query
        let cmd_score := fuzzy_match cmd.command query
        let explanation_score := fuzzy_match cmd.explanation query
        let best_score := ([path_score, cmd_score, explanation_score].filterMap id).max?
        best_score.map (fun score => (idx, score)))
      sortScoreDesc scored
  let selected := if filtered.length ≤ a.selected then 0 else a.selected
  { a with filtered := filtered, selected := selected, scroll_offset := 0 }

/-- `App::ensure_visible`. -/
def App.ensure_visible (a : App) : App :=
  if a.selected < a.scroll_offset then
    { a with scroll_offset := a.selected }
  else if a.scroll_offset + a.visible_height ≤ a.selected then
    { a with scroll_offset := a.selected - (a.visible_height - 1) }
  else a

/-- `App::move_up`. -/
def App.move_up (a : App) : App :=
  if !a.filtered.isEmpty && 0 < a.selected then
    ({ a with selected := a.selected - 1 }).ensure_visible
  else a

/-- `App::move_down`. -/
def App.move_down (a : App) : App :=
  if !a.filtered.isEmpty && a.selected < a.filtered.length - 1 then
    ({ a with selected := a.selected + 1 }).ensure_visible
  else a

/-- Character-position insertion into a string; Rust's
`String::insert` uses a byte offset, identical for the ASCII inputs the
claims exercise (spec section 9 flags the byte-versus-character issue). -/
def strInsertAt (s : String) (i : Nat) (c : Char) : String :=
  ⟨s.data.take i ++ c :: s.data.drop i⟩

/-- Character-position removal from a string (Rust `String::remove`). -/
def strRemoveAt (s : String) (i : Nat) : String :=
  ⟨s.data.take i ++ s.data.drop (i + 1)⟩

/-- `App::insert_char`: in Normal mode, insert at the query cursor and
refilter; in Add/Edit modes, push onto the active form buffer. -/
def App.insert_char (a : App) (c : Char) : App :=
  match a.mode with
  | .Normal =>
    ({ a with input := strInsertAt a.input a.cursor_position c,
              cursor_position := a.cursor_position + 1 }).update_filter
  | .Add | .Edit =>
    match a.active_field with
    | .Path => { a with form_path := a.form_path.push c }
    | .Command => { a with form_command := a.form_command.push c }
    | .Description => { a with form_description := a.form_description.push c }
  | _ => a

/-- `App::delete_char`: in Normal mode, backspace at the query cursor and
refilter; in Add/Edit modes, pop from the active form buffer. -/
def App.delete_char (a : App) : App :=
  match a.mode with
  | .Normal =>
    if 0 < a.cursor_position then
      ({ a with cursor_position := a.cursor_position - 1,
                input := strRemoveAt a.input (a.cursor_position - 1) }).update_filter
    else a
  | .Add | .Edit =>
    match a.active_field with
    | .Path => { a with form_path := ⟨a.form_path.data.dropLast⟩ }
    | .Command => { a with form_command := ⟨a.form_command.data.dropLast⟩ }
    | .Description => { a with form_description := ⟨a.form_description.data.dropLast⟩ }
  | _ => a

/-- `App::clear_input`: in Normal mode, clear the query and refilter. -/
def App.clear_input (a : App) : App :=
  match a.mode with
  | .Normal =>
    ({ a with input := "", cursor_position := 0 }).update_filter
  | .Add | .Edit =>
    match a.active_field with
    | .Path => { a with form_path := "" }
    | .Command => { a with form_command := "" }
    | .Description => { a with form_description := "" }
  | _ => a

/-- `App::enter_edit_mode`: only when something is selected; pre-fill the
form buffers from the selected record and remember its path. -/
def App.enter_edit_mode (a : App) : App :=
  match a.filtered.get? a.selected with
  | some (idx, _) =>
    let cmd := (a.commands.get? idx).getD ⟨"", "", ""⟩
    { a with form_path := cmd.path,
             form_command := cmd.command,
             form_description := cmd.explanation,
             editing_original_path := some cmd.path,
             mode := .Edit,
             active_field := .Command,
             message := none }
  | none => a

/-- `App::enter_delete_mode`. -/
def App.enter_delete_mode (a : App) : App :=
  if !a.filtered.isEmpty then
    { a with mode := .Delete, message := none }
  else a

/-- `App::clear_form`. -/
def App.clear_form (a : App) : App :=
  { a with form_path := "", form_command := "", form_description := "",
           editing_original_path := none }

/-- The human-readable rendering `format!("Error: {}", e)` used for
status messages (display strings from src/error.rs). -/
def errMsg (e : CmdxError) : String :=
  "Error: " ++
    match e with
    | .NotFound p => "Command not found: " ++ p
    | .AlreadyExists p => "Command already exists: " ++ p
    | .InvalidPath p => "Invalid command path: " ++ p
    | .InvalidFormat => "Invalid command file format"
    | .NotInitialized => "Store not initialized. Run 'cmdx init' first."
    | .Io => "IO error"

/-- `App::save_edited_command`, with the store state passed explicitly:
validate the form buffers, remove the record at
`editing_original_path`, add the record built from the form buffers,
and on add failure attempt a compensating overwrite at the original
path — built, as in the source, from the in-progress
`form_command`/`form_description` buffers.  (The Rust code unwraps
`editing_original_path`; the `none` branch is unreachable in Edit mode,
which always sets it.) -/
def App.save_edited_command (a : App) (store : FsNode) : App × FsNode :=
  if a.form_path.isEmpty || a.form_command.isEmpty then
    ({ a with message := some ("Path and command are required", true) }, store)
  else
    match a.editing_original_path with
    | none => (a, store)
    | some original_path =>
      match Store.remove store original_path with
      | .error e => ({ a with message := some (errMsg e, true) }, store)
      | .ok store1 =>
        let cmd : Command := ⟨a.form_path, a.form_command, a.form_description⟩
        match Store.add store1 cmd false with
        | .ok store2 =>
          let commands :=
            match a.commands.findIdx? (fun c => c.path = original_path) with
            | some idx => a.commands.set idx cmd
            | none => a.commands
          let a1 := ({ a with commands := commands }).update_filter
          (({ a1 with mode := .Normal,
                      message := some ("Command updated successfully", false) }).clear_form,
           store2)
        | .error e =>
          let store1' :=
            match Store.add store1 (Command.new original_path a.form_command a.form_description) true with
            | .ok s => s
            | .error _ => store1
          ({ a with message := some (errMsg e, true) }, store1')

/-- `App::delete_selected_command`, with the store state passed
explicitly: remove the selected record from the store and, on success,
from the in-memory list, refilter, decrement `selected` when it is both
out of bounds and positive, and return to Normal mode. -/
def App.delete_selected_command (a : App) (store : FsNode) : App × FsNode :=
  match a.filtered.get? a.selected with
  | none => (a, store)
  | some (idx, _) =>
    let path := ((a.commands.get? idx).getD ⟨"", "", ""⟩).path
    match Store.remove store path with
    | .ok store' =>
      let a1 := ({ a with commands := a.commands.eraseIdx idx }).update_filter
      let a2 :=
        if a1.filtered.length ≤ a1.selected && 0 < a1.selected then
          { a1 with selected := a1.selected - 1 }
        else a1
      ({ a2 with mode := .Normal, message := some ("Command deleted", false) }, store')
    | .error e =>
      ({ a with message := some (errMsg e, true), mode := .Normal }, store)

/-- The store mutations a session may issue (claim C2's operation
alphabet). -/
inductive StoreOp where
  | add (path command explanation : String) (overwrite : Bool)
  | remove (path : String)
  | rename (src dst : String)

/-- Apply one store operation; a failed operation leaves the state
unchanged (the store returns a typed error and the caller keeps its
handle). -/
def applyStoreOp (root : FsNode) : StoreOp → FsNode
  | .add path command explanation overwrite =>
    match Store.add root ⟨path, command, explanation⟩ overwrite with
    | .ok root' => root'
    | .error _ => root
  | .remove path =>
    match Store.remove root path with
    | .ok root' => root'
    | .error _ => root
  | .rename src dst =>
    match Store.rename root src dst with
    | .ok root' => root'
    | .error _ => root

/-- The state after a sequence of store operations from the freshly
initialized empty store. -/
def runStoreOps (ops : List StoreOp) : FsNode :=
  ops.foldl applyStoreOp Store.initState

/-- Whether a path satisfies the spec's validity conditions: non-empty,
no leading separator, every segment non-empty and not the traversal
segment `..`. -/
def validPath (path : String) : Bool :=
  !(path == "") && !(match path.data with | '/' :: _ => true | _ => false)
    && (splitPath path).all (fun seg => !(seg == "") && !(seg == ".."))

/-- Store with two sibling leaves, used to exercise the edit flow whose
add step collides with the second leaf. -/
def c1Store : FsNode := .dir [("a", .file "old\nolddesc\n"), ("b", .file "bcmd\n\n")]

/-- Picker state as it stands inside EditForm on the record at `a`
after the user has retyped all three buffers (new path `b` collides
with the existing record). -/
def c1App : App :=
  { App.new [⟨"a", "old", "olddesc"⟩, ⟨"b", "bcmd", ""⟩] with
      mode := .Edit, form_path := "b", form_command := "new",
      form_description := "newdesc", editing_original_path := some "a" }

/-- Store with a nested leaf and an unrelated sibling leaf. -/
def c3Root : FsNode := .dir [("a", .dir [("b", .file "x\n\n")]), ("c", .file "y\n\n")]

/-- A single record whose fields are chosen so that a query spanning two
fields separates the two ranking policies. -/
def c4Records : List Command := [⟨"a", "b", ""⟩]

/-- Store with two top-level leaves, used for the rename-versus-
remove-then-add comparison when the destination is occupied. -/
def c6Store : FsNode := .dir [("x", .file "1\n\n"), ("y", .file "2\n\n")]

/-- Store with a nested leaf and an unrelated sibling, used to follow a
successful rename across directories. -/
def c6wRoot : FsNode := .dir [("a", .dir [("b", .file "old\nolddesc\n")]), ("k", .file "kk\n\n")]

/-- The store `c6wRoot` after `rename("a/b", "c/d")`: the leaf moved, the
emptied `a` pruned, the sibling untouched. -/
def c6wRoot' : FsNode := .dir [("k", .file "kk\n\n"), ("c", .dir [("d", .file "old\nolddesc\n")])]

/-- Two records both matching the query character `g`. -/
def c7Cmds : List Command := [⟨"git/a", "g1", ""⟩, ⟨"git/b", "g2", ""⟩]

/-- Picker after typing `g`, moving the selection down to the second
match, then erasing the query character: the query change recomputes
the filter while the previous selection index is still in bounds. -/
def c7App : App := (((App.new c7Cmds).insert_char 'g').move_down).delete_char

/-- Store whose name `a` is an internal node (category), not a leaf. -/
def c8Store : FsNode := .dir [("a", .dir [("b", .file "x\n\n")])]

/-- Three records matching an empty query. -/
def c9Cmds : List Command := [⟨"a", "1", ""⟩, ⟨"b", "2", ""⟩, ⟨"c", "3", ""⟩]

/-- The store holding the three records of `c9Cmds`. -/
def c9Store : FsNode :=
  .dir [("a", .file "1\n\n"), ("b", .file "2\n\n"), ("c", .file "3\n\n")]

/-- Picker in DeleteConfirm on the last of three records (selection
moved down twice from the initial state). -/
def c9App : App := ((App.new c9Cmds).move_down.move_down).enter_delete_mode

/-! ### Helper lemmas about the filesystem model -/


theorem lookupChild_append (cs ds : List (String × FsNode)) (t : String) :
    lookupChild (cs ++ ds) t =
      match lookupChild cs t with
      | some w => some w
      | none => lookupChild ds t := by
  induction cs with
  | nil => simp [lookupChild]
  | cons e rest ih =>
    simp only [List.cons_append, lookupChild]
    by_cases het : e.1 = t
    · simp [het]
    · simp [het, ih]

theorem lookupChild_mapReplace (cs : List (String × FsNode)) (s t : String) (v : FsNode) :
    lookupChild (cs.map (fun e => if e.1 = s then (e.1, v) else e)) t =
      if t = s then (if (lookupChild cs s).isSome then some v else none)
      else lookupChild cs t := by
  induction cs with
  | nil => by_cases hts : t = s <;> simp [lookupChild, hts]
  | cons e rest ih =>
    obtain ⟨k, w⟩ := e
    rw [List.map_cons]
    by_cases hks : k = s
    · have hhead : (if (k, w).1 = s then ((k, w).1, v) else (k, w)) = (k, v) := by
        simp [hks]
      rw [hhead]
      by_cases htk : t = k
      · have hts : t = s := htk.trans hks
        have hkt : k = t := htk.symm
        simp only [lookupChild, if_pos hkt, if_pos hks, if_pos hts, Option.isSome_some, if_true]
      · have hts : ¬ t = s := fun h => htk (h.trans hks.symm)
        have hkt : ¬ k = t := fun h => htk h.symm
        simp only [lookupChild, if_neg hkt, if_neg hts, if_pos hks, ih]
    · have hhead : (if (k, w).1 = s then ((k, w).1, v) else (k, w)) = (k, w) := by
        simp [hks]
      rw [hhead]
      by_cases hkt : k = t
      · have hts : ¬ t = s := fun h => hks (hkt.trans h)
        simp only [lookupChild, if_pos hkt, if_neg hts]
      · simp only [lookupChild, if_neg hkt, if_neg hks, ih]

theorem lookupChild_insertChild (cs : List (String × FsNode)) (s t : String) (v : FsNode) :
    lookupChild (insertChild cs s v) t = if t = s then some v else lookupChild cs t := by
  unfold insertChild
  by_cases hmem : (lookupChild cs s).isSome
  · simp [hmem, lookupChild_mapReplace]
  · simp only [hmem, if_false, Bool.false_eq_true, lookupChild_append]
    by_cases hts : t = s
    · have hnone : lookupChild cs t = none := by
        cases h : lookupChild cs t with
        | none => rfl
        | some w => rw [← hts] at hmem; rw [h] at hmem; simp at hmem
      simp only [hnone, lookupChild, if_pos hts]
      rw [if_pos hts.symm]
    · cases h : lookupChild cs t with
      | none =>
        have hst : ¬ s = t := fun h => hts h.symm
        simp only [h, lookupChild, if_neg hts, if_neg hst]
      | some w => simp [hts]

theorem lookupChild_eraseChild (cs : List (String × FsNode)) (s t : String) :
    lookupChild (eraseChild cs s) t = if t = s then none else lookupChild cs t := by
  induction cs with
  | nil => simp [eraseChild, lookupChild]
  | cons e rest ih =>
    obtain ⟨k, w⟩ := e
    by_cases hks : k = s
    · have hcons : eraseChild ((k, w) :: rest) s = eraseChild rest s := by
        simp [eraseChild, List.filter_cons, hks]
      rw [hcons, ih]
      by_cases hts : t = s
      · simp [hts]
      · have hkt : ¬ k = t := fun h => hts (h ▸ hks)
        simp only [if_neg hts, lookupChild, if_neg hkt]
    · have hcons : eraseChild ((k, w) :: rest) s = (k, w) :: eraseChild rest s := by
        simp [eraseChild, List.filter_cons, bne, hks]
      rw [hcons]
      by_cases hkt : k = t
      · have hts : ¬ t = s := fun h => hks (hkt.trans h)
        simp only [lookupChild, if_pos hkt, if_neg hts]
      · simp only [lookupChild, if_neg hkt, ih]

theorem getNode_append (n : FsNode) (a b : List String) :
    getNode n (a ++ b) = (getNode n a).bind (fun m => getNode m b) := by
  induction a generalizing n with
  | nil => simp [getNode]
  | cons s rest ih =>
    cases n with
    | file c => simp [getNode]
    | dir cs =>
      simp only [List.cons_append, getNode]
      cases h : lookupChild cs s with
      | some c => simp [ih c]
      | none => simp

theorem getNode_file_no_extension (n : FsNode) (p q : List String) (c : String)
    (hfile : getNode n p = some (.file c)) (hq : q ≠ []) :
    getNode n (p ++ q) = none := by
  rw [getNode_append, hfile]
  cases q with
  | nil => exact absurd rfl hq
  | cons t rest => simp [getNode]

theorem getNode_chain_nonempty (n : FsNode) (e f : List String) (v : FsNode)
    (hget : getNode n (e ++ f) = some v) (hf : f ≠ []) :
    ∃ cs, getNode n e = some (.dir cs) ∧ cs ≠ [] := by
  rw [getNode_append] at hget
  cases hm : getNode n e with
  | none => rw [hm] at hget; simp at hget
  | some m =>
    rw [hm] at hget
    replace hget : getNode m f = some v := hget
    cases m with
    | file c =>
      cases f with
      | nil => exact absurd rfl hf
      | cons t rest => simp [getNode] at hget
    | dir cs =>
      refine ⟨cs, rfl, ?_⟩
      cases f with
      | nil => exact absurd rfl hf
      | cons t rest =>
        intro hnil
        subst hnil
        simp [getNode, lookupChild] at hget

theorem pfx_dropLast_of_ne {e p : List String} (hpfx : e <+: p) (hne : e ≠ p) :
    e <+: p.dropLast := by
  have hlt : e.length < p.length := by
    rcases lt_or_eq_of_le (List.IsPrefix.length_le hpfx) with h | h
    · exact h
    · exact absurd (List.IsPrefix.eq_of_length hpfx h) hne
  rw [List.prefix_iff_eq_take] at hpfx ⊢
  rw [List.dropLast_eq_take, List.take_take, min_eq_left (by omega)]
  exact hpfx

theorem getNode_dir_cons (cs : List (String × FsNode)) (s : String) (r : List String) :
    getNode (.dir cs) (s :: r) =
      (match lookupChild cs s with | some c => getNode c r | none => none) := rfl

theorem eraseAt_dir_single (cs : List (String × FsNode)) (s : String) :
    eraseAt (.dir cs) [s] = .dir (eraseChild cs s) := rfl

theorem eraseAt_dir_cons (cs : List (String × FsNode)) (s u : String) (r : List String) :
    eraseAt (.dir cs) (s :: u :: r) =
      (match lookupChild cs s with
       | some c => .dir (insertChild cs s (eraseAt c (u :: r)))
       | none => .dir cs) := rfl

theorem setAt_dir_single (cs : List (String × FsNode)) (s : String) (v : FsNode) :
    setAt (.dir cs) [s] v = .dir (insertChild cs s v) := rfl

theorem setAt_dir_cons (cs : List (String × FsNode)) (s u : String) (r : List String) (v : FsNode) :
    setAt (.dir cs) (s :: u :: r) v =
      (match lookupChild cs s with
       | some c => .dir (insertChild cs s (setAt c (u :: r) v))
       | none => .dir cs) := rfl

theorem getNode_eraseAt_self (p : List String) : ∀ (n : FsNode), p ≠ [] →
    getNode (eraseAt n p) p = none := by
  induction p with
  | nil => intro n h; exact absurd rfl h
  | cons s rest ih =>
    intro n _
    cases n with
    | file c =>
      rw [show eraseAt (FsNode.file c) (s :: rest) = FsNode.file c from rfl]
      rfl
    | dir cs =>
      cases rest with
      | nil =>
        rw [eraseAt_dir_single, getNode_dir_cons, lookupChild_eraseChild]
        simp
      | cons u r =>
        rw [eraseAt_dir_cons]
        cases h : lookupChild cs s with
        | some c =>
          rw [getNode_dir_cons, lookupChild_insertChild, if_pos rfl]
          exact ih c (by simp)
        | none =>
          rw [getNode_dir_cons, h]

theorem getNode_eraseAt_file_frame (p : List String) :
    ∀ (n : FsNode) (q : List String) (c : String), ¬ (p <+: q) →
    getNode n q = some (.file c) → getNode (eraseAt n p) q = some (.file c) := by
  induction p with
  | nil => intro n q c hnpfx _; exact absurd List.nil_prefix hnpfx
  | cons s rest ih =>
    intro n q c hnpfx hq
    cases n with
    | file d => rwa [show eraseAt (FsNode.file d) (s :: rest) = FsNode.file d from rfl]
    | dir cs =>
      cases q with
      | nil => simp [getNode] at hq
      | cons t q' =>
        by_cases hst : s = t
        · subst hst
          have hnp' : ¬ (rest <+: q') := fun hh => hnpfx (List.cons_prefix_cons.mpr ⟨rfl, hh⟩)
          cases rest with
          | nil => exact absurd List.nil_prefix hnp'
          | cons u r =>
            rw [eraseAt_dir_cons]
            cases h : lookupChild cs s with
            | some child =>
              rw [getNode_dir_cons, lookupChild_insertChild, if_pos rfl]
              rw [getNode_dir_cons, h] at hq
              exact ih child q' c hnp' hq
            | none =>
              rw [getNode_dir_cons, h] at hq
              exact Option.noConfusion hq
        · have hts : ¬ t = s := fun hh => hst hh.symm
          cases rest with
          | nil =>
            rw [eraseAt_dir_single, getNode_dir_cons, lookupChild_eraseChild, if_neg hts]
            rw [getNode_dir_cons] at hq
            exact hq
          | cons u r =>
            rw [eraseAt_dir_cons]
            cases h : lookupChild cs s with
            | some child =>
              rw [getNode_dir_cons, lookupChild_insertChild, if_neg hts]
              rw [getNode_dir_cons] at hq
              exact hq
            | none =>
              rw [getNode_dir_cons]
              rw [getNode_dir_cons] at hq
              exact hq

theorem getNode_eraseAt_none_frame (p : List String) :
    ∀ (n : FsNode) (q : List String), getNode n q = none →
    getNode (eraseAt n p) q = none := by
  induction p with
  | nil => intro n q h; rwa [show eraseAt n [] = n from by cases n <;> rfl]
  | cons s rest ih =>
    intro n q hq
    cases n with
    | file d => rwa [show eraseAt (FsNode.file d) (s :: rest) = FsNode.file d from rfl]
    | dir cs =>
      cases q with
      | nil => simp [getNode] at hq
      | cons t q' =>
        cases rest with
        | nil =>
          rw [eraseAt_dir_single, getNode_dir_cons, lookupChild_eraseChild]
          by_cases hts : t = s
          · rw [if_pos hts]
          · rw [if_neg hts]
            rw [getNode_dir_cons] at hq
            exact hq
        | cons u r =>
          rw [eraseAt_dir_cons]
          cases h : lookupChild cs s with
          | some child =>
            rw [getNode_dir_cons, lookupChild_insertChild]
            by_cases hts : t = s
            · rw [if_pos hts]
              rw [getNode_dir_cons] at hq
              rw [hts, h] at hq
              exact ih child q' hq
            · rw [if_neg hts]
              rw [getNode_dir_cons] at hq
              exact hq
          | none =>
            rw [getNode_dir_cons]
            rw [getNode_dir_cons] at hq
            exact hq

theorem eraseAt_isDirNode (n : FsNode) (p : List String) :
    (eraseAt n p).isDirNode = n.isDirNode := by
  cases n with
  | file c => cases p with
    | nil => rfl
    | cons s r => cases r <;> rfl
  | dir cs => cases p with
    | nil => rfl
    | cons s r =>
      cases r with
      | nil => rfl
      | cons u r' =>
        rw [eraseAt_dir_cons]
        cases lookupChild cs s <;> rfl

theorem getNode_nil (n : FsNode) : getNode n [] = some n := by
  cases n <;> rfl

theorem getNode_setAt_self (p : List String) :
    ∀ (n v : FsNode) (cs0 : List (String × FsNode)),
    getNode n p.dropLast = some (.dir cs0) → p ≠ [] →
    getNode (setAt n p v) p = some v := by
  induction p with
  | nil => intro n v cs0 _ hp; exact absurd rfl hp
  | cons s rest ih =>
    intro n v cs0 hpar _
    cases rest with
    | nil =>
      replace hpar : getNode n [] = some (FsNode.dir cs0) := hpar
      rw [getNode_nil] at hpar
      obtain rfl : n = FsNode.dir cs0 := Option.some.inj hpar
      rw [setAt_dir_single, getNode_dir_cons, lookupChild_insertChild, if_pos rfl]
      exact getNode_nil v
    | cons u r =>
      cases n with
      | file c =>
        replace hpar : getNode (FsNode.file c) (s :: (u :: r).dropLast) = some (FsNode.dir cs0) := hpar
        rw [show getNode (FsNode.file c) (s :: (u :: r).dropLast) = none from rfl] at hpar
        exact Option.noConfusion hpar
      | dir cs =>
        replace hpar : getNode (FsNode.dir cs) (s :: (u :: r).dropLast) = some (FsNode.dir cs0) := hpar
        rw [getNode_dir_cons] at hpar
        cases h : lookupChild cs s with
        | none => rw [h] at hpar; exact Option.noConfusion hpar
        | some child =>
          rw [h] at hpar
          replace hpar : getNode child (u :: r).dropLast = some (FsNode.dir cs0) := hpar
          rw [setAt_dir_cons, h, getNode_dir_cons, lookupChild_insertChild, if_pos rfl]
          exact ih child v cs0 hpar (by simp)

theorem getNode_setAt_file_frame (p : List String) :
    ∀ (n v : FsNode) (q : List String) (c : String), ¬ (p <+: q) →
    getNode n q = some (.file c) → getNode (setAt n p v) q = some (.file c) := by
  induction p with
  | nil => intro n v q c hnpfx _; exact absurd List.nil_prefix hnpfx
  | cons s rest ih =>
    intro n v q c hnpfx hq
    cases n with
    | file d => rwa [show setAt (FsNode.file d) (s :: rest) v = FsNode.file d from rfl]
    | dir cs =>
      cases q with
      | nil => simp [getNode] at hq
      | cons t q' =>
        by_cases hst : s = t
        · subst hst
          have hnp' : ¬ (rest <+: q') := fun hh => hnpfx (List.cons_prefix_cons.mpr ⟨rfl, hh⟩)
          cases rest with
          | nil => exact absurd List.nil_prefix hnp'
          | cons u r =>
            rw [setAt_dir_cons]
            cases h : lookupChild cs s with
            | some child =>
              rw [getNode_dir_cons, lookupChild_insertChild, if_pos rfl]
              rw [getNode_dir_cons, h] at hq
              exact ih child v q' c hnp' hq
            | none =>
              rw [getNode_dir_cons, h] at hq
              exact Option.noConfusion hq
        · have hts : ¬ t = s := fun hh => hst hh.symm
          cases rest with
          | nil =>
            rw [setAt_dir_single, getNode_dir_cons, lookupChild_insertChild, if_neg hts]
            rw [getNode_dir_cons] at hq
            exact hq
          | cons u r =>
            rw [setAt_dir_cons]
            cases h : lookupChild cs s with
            | some child =>
              rw [getNode_dir_cons, lookupChild_insertChild, if_neg hts]
              rw [getNode_dir_cons] at hq
              exact hq
            | none =>
              rw [getNode_dir_cons]
              rw [getNode_dir_cons] at hq
              exact hq

theorem getNode_setAt_none_frame (p : List String) :
    ∀ (n v : FsNode) (q : List String), ¬ (p <+: q) →
    getNode n q = none → getNode (setAt n p v) q = none := by
  induction p with
  | nil => intro n v q hnpfx _; exact absurd List.nil_prefix hnpfx
  | cons s rest ih =>
    intro n v q hnpfx hq
    cases n with
    | file d => rwa [show setAt (FsNode.file d) (s :: rest) v = FsNode.file d from rfl]
    | dir cs =>
      cases q with
      | nil => simp [getNode] at hq
      | cons t q' =>
        by_cases hst : s = t
        · subst hst
          have hnp' : ¬ (rest <+: q') := fun hh => hnpfx (List.cons_prefix_cons.mpr ⟨rfl, hh⟩)
          cases rest with
          | nil => exact absurd List.nil_prefix hnp'
          | cons u r =>
            rw [setAt_dir_cons]
            cases h : lookupChild cs s with
            | some child =>
              rw [getNode_dir_cons, lookupChild_insertChild, if_pos rfl]
              rw [getNode_dir_cons, h] at hq
              exact ih child v q' hnp' hq
            | none =>
              rw [getNode_dir_cons, h]
        · have hts : ¬ t = s := fun hh => hst hh.symm
          cases rest with
          | nil =>
            rw [setAt_dir_single, getNode_dir_cons, lookupChild_insertChild, if_neg hts]
            rw [getNode_dir_cons] at hq
            exact hq
          | cons u r =>
            rw [setAt_dir_cons]
            cases h : lookupChild cs s with
            | some child =>
              rw [getNode_dir_cons, lookupChild_insertChild, if_neg hts]
              rw [getNode_dir_cons] at hq
              exact hq
            | none =>
              rw [getNode_dir_cons]
              rw [getNode_dir_cons] at hq
              exact hq

theorem setAt_isDirNode (n : FsNode) (p : List String) (v : FsNode) (hp : p ≠ []) :
    (setAt n p v).isDirNode = n.isDirNode := by
  cases n with
  | file c => cases p with
    | nil => rfl
    | cons s r => cases r <;> rfl
  | dir cs => cases p with
    | nil => exact absurd rfl hp
    | cons s r =>
      cases r with
      | nil => rfl
      | cons u r' =>
        rw [setAt_dir_cons]
        cases lookupChild cs s <;> rfl

theorem exceptMap_dir_ok {f : FsNode → FsNode} {r : Except Unit FsNode} {n' : FsNode}
    (h : Except.map f r = .ok n') : ∃ c', r = .ok c' ∧ n' = f c' := by
  cases r with
  | error e => simp [Except.map] at h
  | ok a =>
    refine ⟨a, rfl, ?_⟩
    replace h : Except.ok (ε := Unit) (f a) = Except.ok n' := h
    exact (by injection h : f a = n').symm

theorem createDirAll_file_frame (p : List String) :
    ∀ (n n' : FsNode) (q : List String) (c : String),
    createDirAll n p = .ok n' → getNode n q = some (.file c) →
    getNode n' q = some (.file c) := by
  induction p with
  | nil =>
    intro n n' q c hok hq
    cases n with
    | file d => simp [createDirAll] at hok
    | dir cs =>
      replace hok : Except.ok (FsNode.dir cs) = Except.ok (ε := Unit) n' := hok
      obtain rfl : FsNode.dir cs = n' := by injection hok
      exact hq
  | cons s rest ih =>
    intro n n' q c hok hq
    cases n with
    | file d => simp [createDirAll] at hok
    | dir cs =>
      cases h : lookupChild cs s with
      | some child =>
        replace hok : Except.map (fun c' => FsNode.dir (insertChild cs s c'))
            (createDirAll child rest) = Except.ok n' := by
          rw [show createDirAll (FsNode.dir cs) (s :: rest)
              = (match lookupChild cs s with
                 | some child => (createDirAll child rest).map
                     fun c' => FsNode.dir (insertChild cs s c')
                 | none => (createDirAll (FsNode.dir []) rest).map
                     fun c' => FsNode.dir (insertChild cs s c')) from rfl, h] at hok
          exact hok
        obtain ⟨child', hr, rfl⟩ := exceptMap_dir_ok hok
        cases q with
        | nil => simp [getNode] at hq
        | cons t q' =>
          rw [getNode_dir_cons, lookupChild_insertChild]
          rw [getNode_dir_cons] at hq
          by_cases hts : t = s
          · rw [if_pos hts]
            rw [hts, h] at hq
            exact ih child child' q' c hr hq
          · rw [if_neg hts]
            exact hq
      | none =>
        replace hok : Except.map (fun c' => FsNode.dir (insertChild cs s c'))
            (createDirAll (FsNode.dir []) rest) = Except.ok n' := by
          rw [show createDirAll (FsNode.dir cs) (s :: rest)
              = (match lookupChild cs s with
                 | some child => (createDirAll child rest).map
                     fun c' => FsNode.dir (insertChild cs s c')
                 | none => (createDirAll (FsNode.dir []) rest).map
                     fun c' => FsNode.dir (insertChild cs s c')) from rfl, h] at hok
          exact hok
        obtain ⟨child', hr, rfl⟩ := exceptMap_dir_ok hok
        cases q with
        | nil => simp [getNode] at hq
        | cons t q' =>
          rw [getNode_dir_cons, lookupChild_insertChild]
          rw [getNode_dir_cons] at hq
          by_cases hts : t = s
          · rw [hts, h] at hq
            exact Option.noConfusion hq
          · rw [if_neg hts]
            exact hq

theorem createDirAll_isDirNode (p : List String) :
    ∀ (n n' : FsNode), createDirAll n p = .ok n' →
    n'.isDirNode = n.isDirNode := by
  induction p with
  | nil =>
    intro n n' hok
    cases n with
    | file d => simp [createDirAll] at hok
    | dir cs =>
      replace hok : Except.ok (FsNode.dir cs) = Except.ok (ε := Unit) n' := hok
      obtain rfl : FsNode.dir cs = n' := by injection hok
      rfl
  | cons s rest _ =>
    intro n n' hok
    cases n with
    | file d => simp [createDirAll] at hok
    | dir cs =>
      cases h : lookupChild cs s with
      | some child =>
        replace hok : Except.map (fun c' => FsNode.dir (insertChild cs s c'))
            (createDirAll child rest) = Except.ok n' := by
          rw [show createDirAll (FsNode.dir cs) (s :: rest)
              = (match lookupChild cs s with
                 | some child => (createDirAll child rest).map
                     fun c' => FsNode.dir (insertChild cs s c')
                 | none => (createDirAll (FsNode.dir []) rest).map
                     fun c' => FsNode.dir (insertChild cs s c')) from rfl, h] at hok
          exact hok
        obtain ⟨child', _, rfl⟩ := exceptMap_dir_ok hok
        rfl
      | none =>
        replace hok : Except.map (fun c' => FsNode.dir (insertChild cs s c'))
            (createDirAll (FsNode.dir []) rest) = Except.ok n' := by
          rw [show createDirAll (FsNode.dir cs) (s :: rest)
              = (match lookupChild cs s with
                 | some child => (createDirAll child rest).map
                     fun c' => FsNode.dir (insertChild cs s c')
                 | none => (createDirAll (FsNode.dir []) rest).map
                     fun c' => FsNode.dir (insertChild cs s c')) from rfl, h] at hok
          exact hok
        obtain ⟨child', _, rfl⟩ := exceptMap_dir_ok hok
        rfl

theorem cleanupFrom_nil (root : FsNode) : cleanupFrom root [] = root := rfl

theorem cleanupFrom_cons (root : FsNode) (s : String) (rest : List String) :
    cleanupFrom root (s :: rest) =
      (match getNode root (s :: rest) with
       | some (.dir []) => cleanupFrom (eraseAt root (s :: rest)) ((s :: rest).dropLast)
       | some (.dir (_ :: _)) => root
       | _ => cleanupFrom root ((s :: rest).dropLast)) := by
  have hl : ((s :: rest).dropLast).length = rest.length := by
    simp [List.length_dropLast]
  have hstep : cleanupFrom root (s :: rest) =
      (match getNode root (s :: rest) with
       | some (.dir []) =>
         cleanupFuel rest.length (eraseAt root (s :: rest)) ((s :: rest).dropLast)
       | some (.dir (_ :: _)) => root
       | _ => cleanupFuel rest.length root ((s :: rest).dropLast)) := rfl
  have h1 : cleanupFuel rest.length (eraseAt root (s :: rest)) ((s :: rest).dropLast)
      = cleanupFrom (eraseAt root (s :: rest)) ((s :: rest).dropLast) := by
    rw [show cleanupFrom (eraseAt root (s :: rest)) ((s :: rest).dropLast)
        = cleanupFuel ((s :: rest).dropLast).length (eraseAt root (s :: rest))
            ((s :: rest).dropLast) from rfl, hl]
  have h2 : cleanupFuel rest.length root ((s :: rest).dropLast)
      = cleanupFrom root ((s :: rest).dropLast) := by
    rw [show cleanupFrom root ((s :: rest).dropLast)
        = cleanupFuel ((s :: rest).dropLast).length root ((s :: rest).dropLast) from rfl, hl]
  rw [hstep, h1, h2]

theorem cleanupFrom_ind (motive : FsNode → List String → Prop)
    (case1 : ∀ root, motive root [])
    (case2 : ∀ root (s : String) (rest : List String),
      getNode root (s :: rest) = some (.dir []) →
      motive (eraseAt root (s :: rest)) ((s :: rest).dropLast) → motive root (s :: rest))
    (case3 : ∀ root (s : String) (rest : List String) (head : String × FsNode)
      (tail : List (String × FsNode)),
      getNode root (s :: rest) = some (.dir (head :: tail)) → motive root (s :: rest))
    (case4 : ∀ root (s : String) (rest : List String),
      (getNode root (s :: rest) = some (.dir []) → False) →
      (∀ (head : String × FsNode) (tail : List (String × FsNode)),
        getNode root (s :: rest) = some (.dir (head :: tail)) → False) →
      motive root ((s :: rest).dropLast) → motive root (s :: rest)) :
    ∀ root d, motive root d := by
  have main : ∀ (len : Nat) (root : FsNode) (d : List String), d.length = len →
      motive root d := by
    intro len
    induction len using Nat.strong_induction_on with
    | _ len ih =>
      intro root d hlen
      cases d with
      | nil => exact case1 root
      | cons s rest =>
        have hlt : ((s :: rest).dropLast).length < len := by
          subst hlen
          simp [List.length_dropLast]
        cases g : getNode root (s :: rest) with
        | none =>
          refine case4 root s rest ?_ ?_ (ih _ hlt _ _ rfl)
          · rw [g]; exact fun hh => Option.noConfusion hh
          · intro hd tl hh; rw [g] at hh; exact Option.noConfusion hh
        | some m =>
          cases m with
          | file c =>
            refine case4 root s rest ?_ ?_ (ih _ hlt _ _ rfl)
            · rw [g]
              intro hh
              exact FsNode.noConfusion (Option.some.inj hh)
            · intro hd tl hh
              rw [g] at hh
              exact FsNode.noConfusion (Option.some.inj hh)
          | dir cs =>
            cases cs with
            | nil => exact case2 root s rest g (ih _ hlt _ _ rfl)
            | cons hd tl => exact case3 root s rest hd tl g
  exact fun root d => main d.length root d rfl

theorem cleanupFrom_file_pres (root : FsNode) (d : List String) :
    ∀ (q : List String) (c : String), getNode root q = some (.file c) →
    getNode (cleanupFrom root d) q = some (.file c) := by
  induction root, d using cleanupFrom_ind with
  | case1 root =>
    intro q c hq
    rwa [cleanupFrom_nil]
  | case2 root s rest h ih =>
    intro q c hq
    rw [cleanupFrom_cons, h]
    have hnp : ¬ ((s :: rest) <+: q) := by
      intro hpfx
      obtain ⟨f, rfl⟩ := hpfx
      cases f with
      | nil =>
        rw [List.append_nil, h] at hq
        exact FsNode.noConfusion (Option.some.inj hq)
      | cons x xs =>
        rw [getNode_append, h] at hq
        exact Option.noConfusion hq
    exact ih q c (getNode_eraseAt_file_frame (s :: rest) root q c hnp hq)
  | case3 root s rest head tail h =>
    intro q c hq
    rw [cleanupFrom_cons, h]
    exact hq
  | case4 root s rest hne1 hne2 ih =>
    intro q c hq
    rw [cleanupFrom_cons]
    cases g : getNode root (s :: rest) with
    | none => exact ih q c hq
    | some m =>
      cases m with
      | file e => exact ih q c hq
      | dir cs =>
        cases cs with
        | nil => exact absurd g hne1
        | cons hd tl => exact absurd g (hne2 hd tl)

theorem cleanupFrom_none_pres (root : FsNode) (d : List String) :
    ∀ (q : List String), getNode root q = none →
    getNode (cleanupFrom root d) q = none := by
  induction root, d using cleanupFrom_ind with
  | case1 root =>
    intro q hq
    rwa [cleanupFrom_nil]
  | case2 root s rest h ih =>
    intro q hq
    rw [cleanupFrom_cons, h]
    exact ih q (getNode_eraseAt_none_frame (s :: rest) root q hq)
  | case3 root s rest head tail h =>
    intro q hq
    rw [cleanupFrom_cons, h]
    exact hq
  | case4 root s rest hne1 hne2 ih =>
    intro q hq
    rw [cleanupFrom_cons]
    cases g : getNode root (s :: rest) with
    | none => exact ih q hq
    | some m =>
      cases m with
      | file e => exact ih q hq
      | dir cs =>
        cases cs with
        | nil => exact absurd g hne1
        | cons hd tl => exact absurd g (hne2 hd tl)

theorem cleanupFrom_isDirNode (root : FsNode) (d : List String) :
    (cleanupFrom root d).isDirNode = root.isDirNode := by
  induction root, d using cleanupFrom_ind with
  | case1 root => rw [cleanupFrom_nil]
  | case2 root s rest h ih =>
    rw [cleanupFrom_cons, h]
    exact ih.trans (eraseAt_isDirNode root (s :: rest))
  | case3 root s rest head tail h =>
    rw [cleanupFrom_cons, h]
  | case4 root s rest hne1 hne2 ih =>
    rw [cleanupFrom_cons]
    cases g : getNode root (s :: rest) with
    | none => exact ih
    | some m =>
      cases m with
      | file e => exact ih
      | dir cs =>
        cases cs with
        | nil => exact absurd g hne1
        | cons hd tl => exact absurd g (hne2 hd tl)

theorem cleanupFrom_no_empty_ancestor (root : FsNode) (d : List String) :
    ∀ (e : List String), e ≠ [] → e <+: d →
    ∀ (cs : List (String × FsNode)),
    getNode (cleanupFrom root d) e = some (.dir cs) → cs ≠ [] := by
  induction root, d using cleanupFrom_ind with
  | case1 root =>
    intro e he0 hepfx
    rw [List.prefix_nil] at hepfx
    exact absurd hepfx he0
  | case2 root s rest h ih =>
    intro e he0 hepfx cs hget
    rw [cleanupFrom_cons, h] at hget
    by_cases hed : e = s :: rest
    · have hnone : getNode (eraseAt root (s :: rest)) (s :: rest) = none :=
        getNode_eraseAt_self (s :: rest) root (by simp)
      have hnone2 := cleanupFrom_none_pres (eraseAt root (s :: rest))
        ((s :: rest).dropLast) (s :: rest) hnone
      rw [hed, hnone2] at hget
      exact Option.noConfusion hget
    · exact ih e he0 (pfx_dropLast_of_ne hepfx hed) cs hget
  | case3 root s rest head tail h =>
    intro e he0 hepfx cs hget
    rw [cleanupFrom_cons, h] at hget
    by_cases hed : e = s :: rest
    · rw [hed, h] at hget
      have : FsNode.dir (head :: tail) = FsNode.dir cs := Option.some.inj hget
      have hcs : head :: tail = cs := by injection this
      rw [← hcs]
      simp
    · obtain ⟨f, hf⟩ := hepfx
      have hfne : f ≠ [] := by
        intro hnil
        rw [hnil, List.append_nil] at hf
        exact hed hf
      obtain ⟨cs', hcs', hne⟩ := getNode_chain_nonempty root e f (FsNode.dir (head :: tail))
        (by rw [hf]; exact h) hfne
      rw [hcs'] at hget
      have : FsNode.dir cs' = FsNode.dir cs := Option.some.inj hget
      have hcs : cs' = cs := by injection this
      rw [← hcs]
      exact hne
  | case4 root s rest hne1 hne2 ih =>
    intro e he0 hepfx cs hget
    rw [cleanupFrom_cons] at hget
    cases g : getNode root (s :: rest) with
    | none =>
      rw [g] at hget
      by_cases hed : e = s :: rest
      · have hnone2 := cleanupFrom_none_pres root ((s :: rest).dropLast) (s :: rest) g
        rw [hed, hnone2] at hget
        exact Option.noConfusion hget
      · exact ih e he0 (pfx_dropLast_of_ne hepfx hed) cs hget
    | some m =>
      cases m with
      | file c0 =>
        rw [g] at hget
        by_cases hed : e = s :: rest
        · have hfp := cleanupFrom_file_pres root ((s :: rest).dropLast) (s :: rest) c0 g
          rw [hed, hfp] at hget
          exact FsNode.noConfusion (Option.some.inj hget)
        · exact ih e he0 (pfx_dropLast_of_ne hepfx hed) cs hget
      | dir cs0 =>
        cases cs0 with
        | nil => exact absurd g hne1
        | cons hd tl => exact absurd g (hne2 hd tl)

theorem stripCr_no_cr (l : List Char) (h : l.getLast? ≠ some '\r') : stripCr l = l := by
  unfold stripCr
  cases hl : l.getLast? with
  | none => rfl
  | some c =>
    by_cases hc : c = '\r'
    · exact absurd (hc ▸ hl) h
    · simp [hc]

theorem splitAllNl_cons_ne (c : Char) (rest : List Char) (hc : c ≠ '\n') :
    splitAllNl (c :: rest) =
      (match splitAllNl rest with | [] => [[c]] | p :: ps => (c :: p) :: ps) := by
  simp [splitAllNl, hc]

theorem splitAllNl_ne_nil (l : List Char) : splitAllNl l ≠ [] := by
  induction l with
  | nil => simp [splitAllNl]
  | cons c rest ih =>
    by_cases hc : c = '\n'
    · subst hc; simp [splitAllNl]
    · rw [splitAllNl_cons_ne c rest hc]
      cases splitAllNl rest <;> simp

theorem splitAllNl_append (l r : List Char) (h : ¬ '\n' ∈ l) :
    splitAllNl (l ++ '\n' :: r) = l :: splitAllNl r := by
  induction l with
  | nil => rfl
  | cons c rest ih =>
    have hc : c ≠ '\n' := fun hh => h (hh ▸ List.mem_cons_self c rest)
    rw [List.cons_append, splitAllNl_cons_ne c _ hc,
      ih (fun hh => h (List.mem_cons_of_mem c hh))]

theorem rustLines_encode (cmd expl : String)
    (hc : ¬ '\n' ∈ cmd.data) (hcr : cmd.data.getLast? ≠ some '\r')
    (he : ¬ '\n' ∈ expl.data) (her : expl.data.getLast? ≠ some '\r') :
    rustLines (cmd ++ "\n" ++ expl ++ "\n") = [cmd, expl] := by
  unfold rustLines
  have hdata : (cmd ++ "\n" ++ expl ++ "\n").data
      = cmd.data ++ '\n' :: (expl.data ++ '\n' :: []) := by
    simp [String.data_append]
  rw [hdata, splitAllNl_append _ _ hc, splitAllNl_append _ _ he]
  rw [show splitAllNl [] = [[]] from rfl]
  have hcond : ([cmd.data, expl.data, []] : List (List Char)).getLast? = some [] := rfl
  show List.map (fun l => (⟨stripCr l⟩ : String))
      (if ([cmd.data, expl.data, []] : List (List Char)).getLast? = some []
       then ([cmd.data, expl.data, []] : List (List Char)).dropLast
       else [cmd.data, expl.data, []]) = [cmd, expl]
  rw [if_pos hcond,
    show ([cmd.data, expl.data, []] : List (List Char)).dropLast = [cmd.data, expl.data] from rfl,
    List.map_cons, List.map_cons, List.map_nil,
    stripCr_no_cr cmd.data hcr, stripCr_no_cr expl.data her]

theorem parse_to_file_content (path : String) (c : Command)
    (hc : ¬ '\n' ∈ c.command.data) (hcr : c.command.data.getLast? ≠ some '\r')
    (htr : rustTrim c.command = c.command) (hne : c.command ≠ "")
    (he : ¬ '\n' ∈ c.explanation.data) (her : c.explanation.data.getLast? ≠ some '\r')
    (hetr : rustTrim c.explanation = c.explanation) :
    Command.parse path c.to_file_content = .ok ⟨path, c.command, c.explanation⟩ := by
  have key : Command.parse path (c.command ++ "\n" ++ c.explanation ++ "\n")
      = if rustTrim c.command = "" then .error .InvalidFormat
        else .ok ⟨path, rustTrim c.command, rustTrim c.explanation⟩ := by
    unfold Command.parse
    rw [rustLines_encode c.command c.explanation hc hcr he her]
    rfl
  rw [show c.to_file_content = c.command ++ "\n" ++ c.explanation ++ "\n" from rfl, key,
    htr, hetr, if_neg hne]

theorem fsWrite_ok_inv (n : FsNode) (p : List String) (content : String) (n' : FsNode)
    (h : fsWrite n p content = .ok n') :
    p ≠ [] ∧ (∃ cs, getNode n p.dropLast = some (.dir cs)) ∧
    n' = setAt n p (.file content) := by
  cases p with
  | nil => exact Except.noConfusion h
  | cons s rest =>
    replace h : (match getNode n ((s :: rest).dropLast) with
      | some (.dir cs) =>
        match lookupChild cs ((s :: rest).getLast (List.cons_ne_nil s rest)) with
        | some (.dir _) => Except.error ()
        | _ => Except.ok (setAt n (s :: rest) (FsNode.file content))
      | _ => Except.error ()) = Except.ok n' := h
    cases hg : getNode n ((s :: rest).dropLast) with
    | none => rw [hg] at h; exact Except.noConfusion h
    | some m =>
      cases m with
      | file d => rw [hg] at h; exact Except.noConfusion h
      | dir cs =>
        rw [hg] at h
        replace h : (match lookupChild cs ((s :: rest).getLast (List.cons_ne_nil s rest)) with
          | some (.dir _) => Except.error ()
          | _ => Except.ok (setAt n (s :: rest) (FsNode.file content))) = Except.ok n' := h
        refine ⟨by simp, ⟨cs, rfl⟩, ?_⟩
        cases hl : lookupChild cs ((s :: rest).getLast (List.cons_ne_nil s rest)) with
        | none => rw [hl] at h; exact (by injection h : _ = n').symm
        | some m2 =>
          rw [hl] at h
          cases m2 with
          | file d2 => exact (by injection h : _ = n').symm
          | dir cs2 => exact Except.noConfusion h

theorem store_get_eq (root : FsNode) (path : String) :
    Store.get root path =
      (match getNode root (splitPath path) with
       | none => .error (.NotFound path)
       | some node => Command.from_file path node) := rfl

theorem store_add_then_get (root : FsNode) (c : Command) (ow : Bool) (root' : FsNode)
    (hc : ¬ '\n' ∈ c.command.data) (hcr : c.command.data.getLast? ≠ some '\r')
    (htr : rustTrim c.command = c.command) (hne : c.command ≠ "")
    (he : ¬ '\n' ∈ c.explanation.data) (her : c.explanation.data.getLast? ≠ some '\r')
    (hetr : rustTrim c.explanation = c.explanation)
    (hadd : Store.add root c ow = .ok root') :
    Store.get root' c.path = .ok c := by
  replace hadd : (if (getNode root (splitPath c.path)).isSome && !ow then
      Except.error (CmdxError.AlreadyExists c.path)
    else match createDirAll root (splitPath c.path).dropLast with
      | .error _ => Except.error CmdxError.Io
      | .ok root1 =>
        match fsWrite root1 (splitPath c.path) c.to_file_content with
        | .error _ => Except.error CmdxError.Io
        | .ok root2 => Except.ok root2) = Except.ok root' := hadd
  by_cases hcnd : (getNode root (splitPath c.path)).isSome && !ow
  · rw [if_pos hcnd] at hadd; exact Except.noConfusion hadd
  · rw [if_neg hcnd] at hadd
    cases h1 : createDirAll root (splitPath c.path).dropLast with
    | error e => rw [h1] at hadd; exact Except.noConfusion hadd
    | ok root1 =>
      rw [h1] at hadd
      replace hadd : (match fsWrite root1 (splitPath c.path) c.to_file_content with
        | .error _ => Except.error CmdxError.Io
        | .ok root2 => Except.ok root2) = Except.ok root' := hadd
      cases h2 : fsWrite root1 (splitPath c.path) c.to_file_content with
      | error e => rw [h2] at hadd; exact Except.noConfusion hadd
      | ok root2 =>
        rw [h2] at hadd
        obtain rfl : root2 = root' := by injection hadd
        obtain ⟨hpne, ⟨cs, hpar⟩, hset⟩ :=
          fsWrite_ok_inv root1 (splitPath c.path) c.to_file_content root2 h2
        have hget : getNode root2 (splitPath c.path) = some (.file c.to_file_content) := by
          rw [hset]
          exact getNode_setAt_self (splitPath c.path) root1 _ cs hpar hpne
        rw [store_get_eq, hget]
        exact parse_to_file_content c.path c hc hcr htr hne he her hetr

theorem splitPathAux_ne_nil (l : List Char) : splitPathAux l ≠ [] := by
  induction l with
  | nil => simp [splitPathAux]
  | cons c rest ih =>
    by_cases hc : c = '/'
    · subst hc; simp [splitPathAux]
    · rw [show splitPathAux (c :: rest)
          = (match splitPathAux rest with | [] => [[c]] | p :: ps => (c :: p) :: ps) from by
        simp [splitPathAux, hc]]
      cases splitPathAux rest <;> simp

theorem splitPath_ne_nil (s : String) : splitPath s ≠ [] := by
  unfold splitPath
  intro h
  exact splitPathAux_ne_nil s.data (List.map_eq_nil_iff.mp h)

theorem getNode_some_of_append (n : FsNode) (a b : List String) (v : FsNode)
    (h : getNode n (a ++ b) = some v) : ∃ m, getNode n a = some m := by
  rw [getNode_append] at h
  cases hm : getNode n a with
  | none => rw [hm] at h; exact Option.noConfusion h
  | some m => exact ⟨m, rfl⟩

theorem removeFileAt_ok_inv (n : FsNode) (p : List String) (n' : FsNode)
    (h : removeFileAt n p = .ok n') :
    p ≠ [] ∧ (∃ c, getNode n p = some (.file c)) ∧ n' = eraseAt n p := by
  cases p with
  | nil => exact Except.noConfusion h
  | cons s rest =>
    replace h : (match getNode n (s :: rest) with
      | some (.file _) => Except.ok (eraseAt n (s :: rest))
      | _ => Except.error ()) = Except.ok n' := h
    cases hg : getNode n (s :: rest) with
    | none => rw [hg] at h; exact Except.noConfusion h
    | some m =>
      cases m with
      | file c =>
        rw [hg] at h
        exact ⟨by simp, ⟨c, rfl⟩, (by injection h : _ = n').symm⟩
      | dir cs => rw [hg] at h; exact Except.noConfusion h

theorem fsRename_ok_inv (n : FsNode) (ps pd : List String) (n2 : FsNode)
    (h : fsRename n ps pd = .ok n2) :
    ps ≠ [] ∧ pd ≠ [] ∧
    ∃ m cs, getNode n ps = some m ∧
      getNode (eraseAt n ps) pd.dropLast = some (.dir cs) ∧
      n2 = setAt (eraseAt n ps) pd m := by
  cases ps with
  | nil =>
    cases pd with
    | nil => exact Except.noConfusion h
    | cons t rd => exact Except.noConfusion h
  | cons s rs =>
    cases pd with
    | nil => exact Except.noConfusion h
    | cons t rd =>
      replace h : (match getNode n (s :: rs) with
        | none => Except.error ()
        | some m =>
          match getNode (eraseAt n (s :: rs)) ((t :: rd).dropLast) with
          | some (.dir _) => Except.ok (setAt (eraseAt n (s :: rs)) (t :: rd) m)
          | _ => Except.error ()) = Except.ok n2 := h
      cases hg : getNode n (s :: rs) with
      | none => rw [hg] at h; exact Except.noConfusion h
      | some m =>
        rw [hg] at h
        replace h : (match getNode (eraseAt n (s :: rs)) ((t :: rd).dropLast) with
          | some (.dir _) => Except.ok (setAt (eraseAt n (s :: rs)) (t :: rd) m)
          | _ => Except.error ()) = Except.ok n2 := h
        cases hp : getNode (eraseAt n (s :: rs)) ((t :: rd).dropLast) with
        | none => rw [hp] at h; exact Except.noConfusion h
        | some mp =>
          cases mp with
          | file d => rw [hp] at h; exact Except.noConfusion h
          | dir cs =>
            rw [hp] at h
            exact ⟨by simp, by simp, m, cs, rfl, rfl, (by injection h : _ = n2).symm⟩

theorem store_remove_eq (root : FsNode) (path : String) :
    Store.remove root path =
      (if (getNode root (splitPath path)).isNone then .error (.NotFound path)
       else match removeFileAt root (splitPath path) with
         | .error _ => .error .Io
         | .ok root1 => .ok (cleanupFrom root1 (splitPath path).dropLast)) := rfl

theorem store_rename_eq (root : FsNode) (src dst : String) :
    Store.rename root src dst =
      (if (getNode root (splitPath src)).isNone then .error (.NotFound src)
       else if (getNode root (splitPath dst)).isSome then .error (.AlreadyExists dst)
       else match createDirAll root (splitPath dst).dropLast with
         | .error _ => .error .Io
         | .ok root1 =>
           match fsRename root1 (splitPath src) (splitPath dst) with
           | .error _ => .error .Io
           | .ok root2 => .ok (cleanupFrom root2 (splitPath src).dropLast)) := rfl

theorem store_add_eq (root : FsNode) (cmd : Command) (ow : Bool) :
    Store.add root cmd ow =
      (if (getNode root (splitPath cmd.path)).isSome && !ow then
        .error (.AlreadyExists cmd.path)
      else match createDirAll root (splitPath cmd.path).dropLast with
        | .error _ => .error .Io
        | .ok root1 =>
          match fsWrite root1 (splitPath cmd.path) cmd.to_file_content with
          | .error _ => .error .Io
          | .ok root2 => .ok root2) := rfl

theorem parse_no_invalid (p content : String) :
    isInvalidPathErr (Command.parse p content) = false := by
  unfold Command.parse
  cases rustLines content with
  | nil => rfl
  | cons l0 rest =>
    by_cases h : rustTrim l0 = ""
    · simp only [h, if_pos rfl]
      rfl
    · simp only [if_neg h]
      rfl

/-! ### Claim theorems -/

/-- C1: In the picker's EditForm confirm, when `Store.remove` of the
original path succeeds and the subsequent `Store.add` of the new record
fails, the compensating write is supposed to restore the original
record (original path, command and explanation).  The code instead
writes the in-progress form buffers at the original path: starting from
a store holding `a ↦ (old, olddesc)` and `b`, editing `a` with form
buffers `(b, new, newdesc)` makes the add collide with `b`, and the
compensating write leaves `a ↦ (new, newdesc)`, not the original
`(old, olddesc)` — exactly the reconstruction from form buffers the
claim rules out. -/
theorem c1_compensating_write_from_form_buffers :
    getNode c1Store ["a"] = some (.file "old\nolddesc\n") ∧
    Store.remove c1Store "a" = .ok (.dir [("b", .file "bcmd\n\n")]) ∧
    Store.add (.dir [("b", .file "bcmd\n\n")]) ⟨"b", "new", "newdesc"⟩ false
      = .error (.AlreadyExists "b") ∧
    getNode (c1App.save_edited_command c1Store).2 ["a"] = some (.file "new\nnewdesc\n") ∧
    ("new\nnewdesc\n" : String) ≠ "old\nolddesc\n" :=
  ⟨rfl, rfl, rfl, rfl, by decide⟩

/-- C2: For every sequence of store operations from the initialized
empty store, no path is simultaneously a leaf and a strict prefix of
another leaf: a leaf at `p` forecloses a leaf at any proper extension
`p ++ q`.  The filesystem tree makes this structural — a file node has
no children — and every operation that would create such a collision
fails, leaving the state unchanged. -/
theorem c2_leaf_prefix_exclusive (ops : List StoreOp) (p q : List String) (c c' : String)
    (hp : getNode (runStoreOps ops) p = some (.file c))
    (hq : getNode (runStoreOps ops) (p ++ q) = some (.file c')) : q = [] := by
  cases q with
  | nil => rfl
  | cons t r =>
    rw [getNode_file_no_extension (runStoreOps ops) p (t :: r) c hp (by simp)] at hq
    exact Option.noConfusion hq

/-- Witness for C2 at a concrete operation sequence. -/
theorem c2_leaf_prefix_exclusive_witness :
    getNode (runStoreOps [StoreOp.add "a" "x" "" false]) ["a"] = some (.file "x\n\n") ∧
    ([] : List String) = [] :=
  ⟨rfl, c2_leaf_prefix_exclusive [StoreOp.add "a" "x" "" false] ["a"] [] "x\n\n" "x\n\n" rfl rfl⟩

/-- C3: After a successful `Store.remove`, (i) every strict in-store
ancestor of the removed path that still exists is a non-empty
directory — every emptied ancestor was deleted; (ii) every other leaf
is untouched, so no ancestor that still had a child was deleted; and
(iii) the root directory still exists.  Pruning walks upward and stops
at the first non-empty ancestor or at the root. -/
theorem c3_remove_prunes (root : FsNode) (path : String) (root' : FsNode)
    (hdir : root.isDirNode = true)
    (hrem : Store.remove root path = .ok root') :
    (∀ e, e ≠ [] → e <+: splitPath path → e ≠ splitPath path →
      ∀ cs, getNode root' e = some (FsNode.dir cs) → cs ≠ []) ∧
    (∀ q c, q ≠ splitPath path → getNode root q = some (FsNode.file c) →
      getNode root' q = some (FsNode.file c)) ∧
    root'.isDirNode = true := by
  rw [store_remove_eq] at hrem
  by_cases hni : (getNode root (splitPath path)).isNone
  · rw [if_pos hni] at hrem; exact Except.noConfusion hrem
  · rw [if_neg hni] at hrem
    cases hrf : removeFileAt root (splitPath path) with
    | error e => rw [hrf] at hrem; exact Except.noConfusion hrem
    | ok root1 =>
      rw [hrf] at hrem
      obtain rfl : cleanupFrom root1 (splitPath path).dropLast = root' := by injection hrem
      obtain ⟨hpne, ⟨c0, hfile⟩, rfl⟩ := removeFileAt_ok_inv root (splitPath path) root1 hrf
      refine ⟨?_, ?_, ?_⟩
      · intro e he0 hepfx hene cs hget
        exact cleanupFrom_no_empty_ancestor (eraseAt root (splitPath path))
          (splitPath path).dropLast e he0 (pfx_dropLast_of_ne hepfx hene) cs hget
      · intro q c hqne hq
        have hnp : ¬ (splitPath path <+: q) := by
          intro hpfx
          obtain ⟨f, rfl⟩ := hpfx
          cases f with
          | nil => exact hqne (by rw [List.append_nil])
          | cons x xs =>
            rw [getNode_file_no_extension root (splitPath path) (x :: xs) c0 hfile
              (by simp)] at hq
            exact Option.noConfusion hq
        exact cleanupFrom_file_pres (eraseAt root (splitPath path)) (splitPath path).dropLast q c
          (getNode_eraseAt_file_frame (splitPath path) root q c hnp hq)
      · rw [cleanupFrom_isDirNode, eraseAt_isDirNode]
        exact hdir

/-- Witness for C3: removing the nested leaf `a/b` prunes the emptied
directory `a`, keeps the sibling leaf `c`, and keeps the root. -/
theorem c3_remove_prunes_witness :
    Store.remove c3Root "a/b" = .ok (FsNode.dir [("c", .file "y\n\n")]) ∧
    ((∀ e, e ≠ [] → e <+: splitPath "a/b" → e ≠ splitPath "a/b" →
      ∀ cs, getNode (FsNode.dir [("c", .file "y\n\n")]) e = some (FsNode.dir cs) → cs ≠ []) ∧
    (∀ q c, q ≠ splitPath "a/b" → getNode c3Root q = some (FsNode.file c) →
      getNode (FsNode.dir [("c", .file "y\n\n")]) q = some (FsNode.file c)) ∧
    (FsNode.dir [("c", .file "y\n\n")]).isDirNode = true) :=
  ⟨rfl, c3_remove_prunes c3Root "a/b" (FsNode.dir [("c", .file "y\n\n")]) rfl rfl⟩

/-- C4 counterexample: on the single record `{path a, command b,
explanation empty}` and the query `a b`, the CLI `fuzzy_search`
(concatenated haystack `"a b "`) matches the record while the picker's
per-field filter matches nothing — the two policies do not produce the
same set of matching records. -/
theorem c4_policies_differ_counterexample :
    (fuzzy_search "a b" c4Records).map Prod.fst = [⟨"a", "b", ""⟩] ∧
    (App.update_filter
      { App.new c4Records with input := "a b", cursor_position := 3 }).filtered = [] :=
  ⟨rfl, rfl⟩

/-- C4 amended: the two call sites implement divergent ranking
policies — there exist a query and a record set for which the picker's
per-field-maximum filter and the CLI's concatenated-haystack
`fuzzy_search` produce different sets of matching records. -/
theorem c4_policies_differ :
    ∃ (query : String) (records : List Command),
      ((App.update_filter
          { App.new records with
              input := query
              cursor_position := query.length }).filtered.map
        (fun pr => records.get? pr.1))
      ≠ (fuzzy_search query records).map (fun pr => some pr.1) :=
  ⟨"a b", c4Records, by decide⟩

/-- C5 counterexample: the round trip is not the identity for every
non-empty command string — a command with trailing whitespace is
trimmed by `Command::parse`, so `add` then `get` returns a different
record. -/
theorem c5_roundtrip_counterexample :
    Store.add Store.initState ⟨"a", "x ", ""⟩ false = .ok (.dir [("a", .file "x \n\n")]) ∧
    Store.get (FsNode.dir [("a", .file "x \n\n")]) "a" = .ok ⟨"a", "x", ""⟩ ∧
    (⟨"a", "x", ""⟩ : Command) ≠ ⟨"a", "x ", ""⟩ :=
  ⟨rfl, rfl, by decide⟩

/-- C5 amended: for every valid path and for command and explanation
strings that contain no newline, do not end in a carriage return, and
are trim-invariant (with the command non-empty), a successful `add`
followed by `get` at the same path returns exactly the added record:
the two-line encoding with trimming round-trips. -/
theorem c5_add_get_roundtrip (root : FsNode) (path cmd expl : String) (ow : Bool)
    (root' : FsNode)
    (_hvalid : validPath path = true)
    (hc : ¬ '\n' ∈ cmd.data) (hcr : cmd.data.getLast? ≠ some '\r')
    (htr : rustTrim cmd = cmd) (hne : cmd ≠ "")
    (he : ¬ '\n' ∈ expl.data) (her : expl.data.getLast? ≠ some '\r')
    (hetr : rustTrim expl = expl)
    (hadd : Store.add root ⟨path, cmd, expl⟩ ow = .ok root') :
    Store.get root' path = .ok ⟨path, cmd, expl⟩ :=
  store_add_then_get root ⟨path, cmd, expl⟩ ow root' hc hcr htr hne he her hetr hadd

/-- Witness for C5 at a concrete record: adding `a/b ↦ (echo hi, greet)`
to the empty store and reading it back returns the same record. -/
theorem c5_add_get_roundtrip_witness :
    validPath "a/b" = true ∧
    Store.get (FsNode.dir [("a", .dir [("b", .file "echo hi\ngreet\n")])]) "a/b"
      = .ok ⟨"a/b", "echo hi", "greet"⟩ :=
  ⟨by decide,
   c5_add_get_roundtrip Store.initState "a/b" "echo hi" "greet" false
     (FsNode.dir [("a", .dir [("b", .file "echo hi\ngreet\n")])])
     (by decide) (by decide) (by decide) (by decide) (by decide) (by decide) (by decide)
     (by decide) rfl⟩

/-- C6 counterexample: with leaves at both `x` and `y`, `rename(x, y)`
fails with AlreadyExists and leaves `x` readable, while the sequence
`remove(x)` then `add(y, …)` removes `x` before the add fails — the two
are observationally different (`get x` succeeds after the failed rename
but is NotFound after the failed sequence), refuting the unconditional
equivalence. -/
theorem c6_rename_not_remove_add_counterexample :
    Store.rename c6Store "x" "y" = .error (.AlreadyExists "y") ∧
    Store.get c6Store "x" = .ok ⟨"x", "1", ""⟩ ∧
    Store.remove c6Store "x" = .ok (.dir [("y", .file "2\n\n")]) ∧
    Store.add (.dir [("y", .file "2\n\n")]) ⟨"y", "1", ""⟩ false
      = .error (.AlreadyExists "y") ∧
    Store.get (FsNode.dir [("y", .file "2\n\n")]) "x" = .error (.NotFound "x") :=
  ⟨rfl, rfl, rfl, rfl, rfl⟩

/-- C6 amended: for a leaf at `src`, a successful `rename(src, dst)` has
the observable effect of `remove(src)` followed by `add(dst, …)` with
the original content — `dst` holds exactly the content that was at
`src`, `src` is gone, and every other leaf is untouched; and when a
leaf already exists at `dst`, `rename` fails with AlreadyExists before
any mutation (both checks precede every write), so `get(src)` still
returns the original, unmoved content.  The unconditional equivalence
of the original claim fails on the error path (see the
counterexample), because the sequence loses `src` when its add step
fails. -/
theorem c6_rename_spec (root : FsNode) (src dst : String) (content : String) (root' : FsNode)
    (hsrc : getNode root (splitPath src) = some (.file content)) :
    (Store.rename root src dst = .ok root' →
      getNode root' (splitPath dst) = some (.file content) ∧
      getNode root' (splitPath src) = none ∧
      (∀ q c', q ≠ splitPath src → q ≠ splitPath dst →
        getNode root q = some (.file c') → getNode root' q = some (.file c'))) ∧
    (∀ cdst, getNode root (splitPath dst) = some (.file cdst) →
      Store.rename root src dst = .error (.AlreadyExists dst)) := by
  constructor
  · intro hok
    rw [store_rename_eq] at hok
    have hs : ¬ (getNode root (splitPath src)).isNone = true := by rw [hsrc]; simp
    rw [if_neg hs] at hok
    by_cases hd : (getNode root (splitPath dst)).isSome
    · rw [if_pos hd] at hok; exact Except.noConfusion hok
    · rw [if_neg hd] at hok
      have hdnone : getNode root (splitPath dst) = none := by
        cases hgd : getNode root (splitPath dst) with
        | none => rfl
        | some m => rw [hgd] at hd; simp at hd
      cases h1 : createDirAll root (splitPath dst).dropLast with
      | error e => rw [h1] at hok; exact Except.noConfusion hok
      | ok root1 =>
        rw [h1] at hok
        replace hok : (match fsRename root1 (splitPath src) (splitPath dst) with
          | .error _ => Except.error CmdxError.Io
          | .ok root2 => Except.ok (cleanupFrom root2 (splitPath src).dropLast))
            = Except.ok root' := hok
        cases h2 : fsRename root1 (splitPath src) (splitPath dst) with
        | error e => rw [h2] at hok; exact Except.noConfusion hok
        | ok root2 =>
          rw [h2] at hok
          obtain rfl : cleanupFrom root2 (splitPath src).dropLast = root' := by injection hok
          have hsrc1 : getNode root1 (splitPath src) = some (.file content) :=
            createDirAll_file_frame (splitPath dst).dropLast root root1 (splitPath src)
              content h1 hsrc
          obtain ⟨hpsne, hpdne, m, cs, hm, hpar, rfl⟩ :=
            fsRename_ok_inv root1 (splitPath src) (splitPath dst) root2 h2
          obtain rfl : m = FsNode.file content := by
            rw [hsrc1] at hm
            exact (Option.some.inj hm).symm
          have hnpd_ps : ¬ (splitPath dst <+: splitPath src) := by
            intro hpfx
            obtain ⟨f, hf⟩ := hpfx
            obtain ⟨m2, hm2⟩ := getNode_some_of_append root (splitPath dst) f
              (FsNode.file content) (by rw [hf]; exact hsrc)
            rw [hdnone] at hm2
            exact Option.noConfusion hm2
          refine ⟨?_, ?_, ?_⟩
          · have hset : getNode (setAt (eraseAt root1 (splitPath src)) (splitPath dst)
                (FsNode.file content)) (splitPath dst) = some (FsNode.file content) :=
              getNode_setAt_self (splitPath dst) (eraseAt root1 (splitPath src))
                (FsNode.file content) cs hpar hpdne
            exact cleanupFrom_file_pres _ _ _ _ hset
          · have he : getNode (eraseAt root1 (splitPath src)) (splitPath src) = none :=
              getNode_eraseAt_self (splitPath src) root1 hpsne
            have hs2 : getNode (setAt (eraseAt root1 (splitPath src)) (splitPath dst)
                (FsNode.file content)) (splitPath src) = none :=
              getNode_setAt_none_frame (splitPath dst) (eraseAt root1 (splitPath src))
                (FsNode.file content) (splitPath src) hnpd_ps he
            exact cleanupFrom_none_pres _ _ _ hs2
          · intro q c' hqs hqd hq
            have hq1 : getNode root1 q = some (.file c') :=
              createDirAll_file_frame (splitPath dst).dropLast root root1 q c' h1 hq
            have hnps_q : ¬ (splitPath src <+: q) := by
              intro hpfx
              obtain ⟨f, rfl⟩ := hpfx
              cases f with
              | nil => exact hqs (by rw [List.append_nil])
              | cons x xs =>
                rw [getNode_file_no_extension root1 (splitPath src) (x :: xs) content hsrc1
                  (by simp)] at hq1
                exact Option.noConfusion hq1
            have hq2 : getNode (eraseAt root1 (splitPath src)) q = some (.file c') :=
              getNode_eraseAt_file_frame (splitPath src) root1 q c' hnps_q hq1
            have hnpd_q : ¬ (splitPath dst <+: q) := by
              intro hpfx
              obtain ⟨f, rfl⟩ := hpfx
              cases f with
              | nil => exact hqd (by rw [List.append_nil])
              | cons x xs =>
                obtain ⟨m2, hm2⟩ := getNode_some_of_append root (splitPath dst) (x :: xs)
                  (FsNode.file c') hq
                rw [hdnone] at hm2
                exact Option.noConfusion hm2
            have hq3 : getNode (setAt (eraseAt root1 (splitPath src)) (splitPath dst)
                (FsNode.file content)) q = some (.file c') :=
              getNode_setAt_file_frame (splitPath dst) (eraseAt root1 (splitPath src))
                (FsNode.file content) q c' hnpd_q hq2
            exact cleanupFrom_file_pres _ _ _ _ hq3
  · intro cdst hdst
    rw [store_rename_eq]
    have hs : ¬ (getNode root (splitPath src)).isNone = true := by rw [hsrc]; simp
    rw [if_neg hs, if_pos (by rw [hdst]; simp : (getNode root (splitPath dst)).isSome = true)]

/-- Witness for C6: renaming the nested leaf `a/b` to `c/d` moves the
content, prunes the emptied `a`, removes `a/b`, and leaves the sibling
`k` untouched. -/
theorem c6_rename_spec_witness :
    Store.rename c6wRoot "a/b" "c/d" = .ok c6wRoot' ∧
    (getNode c6wRoot' (splitPath "c/d") = some (.file "old\nolddesc\n") ∧
     getNode c6wRoot' (splitPath "a/b") = none ∧
     (∀ q c', q ≠ splitPath "a/b" → q ≠ splitPath "c/d" →
       getNode c6wRoot q = some (.file c') → getNode c6wRoot' q = some (.file c'))) :=
  ⟨rfl, (c6_rename_spec c6wRoot "a/b" "c/d" "old\nolddesc\n" c6wRoot' rfl).1 rfl⟩

/-- C7 counterexample: a query change does not reset the selection
unconditionally.  After typing `g` (both records match), moving the
selection to index 1 and then erasing the query character, the filter
is recomputed (empty query: all records, tied score) but the selection
stays at 1 because it is still in bounds — the claim demands 0. -/
theorem c7_selection_not_reset_counterexample :
    c7App.input = "" ∧ c7App.filtered = [(0, 0), (1, 0)] ∧ c7App.selected = 1 :=
  ⟨rfl, rfl, rfl⟩

/-- C7 amended: on every filter recomputation, `scrollOffset` is reset
to 0 unconditionally, `filtered` is recomputed (for an empty query, all
records in original order with a tied score of 0), but `selection` is
reset to 0 only when the previous selection is out of bounds of the new
filtered list; otherwise it is preserved. -/
theorem c7_update_filter_spec (a : App) :
    (a.update_filter).scroll_offset = 0 ∧
    (a.update_filter).selected
      = (if (a.update_filter).filtered.length ≤ a.selected then 0 else a.selected) ∧
    (a.input = "" → (a.update_filter).filtered
      = (List.range a.commands.length).map (fun i => (i, 0))) := by
  refine ⟨rfl, rfl, ?_⟩
  intro h
  have hempty : a.input.isEmpty = true := by rw [h]; rfl
  unfold App.update_filter
  simp only [hempty, if_true]

/-- Witness for C7 at a concrete picker state. -/
theorem c7_update_filter_spec_witness :
    ((App.new [⟨"a", "b", "c"⟩]).update_filter).scroll_offset = 0 ∧
    ((App.new [⟨"a", "b", "c"⟩]).update_filter).filtered = [(0, 0)] :=
  ⟨(c7_update_filter_spec (App.new [⟨"a", "b", "c"⟩])).1,
   (c7_update_filter_spec (App.new [⟨"a", "b", "c"⟩])).2.2 rfl⟩

/-- C8 counterexample: `get` on a path that resolves to an internal node
(the category `a` containing the leaf `a/b`) fails with the I/O error
from reading a directory, not with NotFound as the claim states. -/
theorem c8_internal_node_io_error :
    Store.get c8Store "a" = .error .Io ∧
    Store.get c8Store "a" ≠ .error (.NotFound "a") :=
  ⟨rfl, fun h => CmdxError.noConfusion (Except.error.inj h)⟩

/-- C8 amended: `get` fails with NotFound exactly when nothing exists at
the path; when the path resolves to an internal node, the existence
check passes and the subsequent file read fails with an I/O error
(reading a directory), not NotFound. -/
theorem c8_get_errors (root : FsNode) (path : String) :
    (getNode root (splitPath path) = none →
      Store.get root path = .error (.NotFound path)) ∧
    (∀ cs, getNode root (splitPath path) = some (.dir cs) →
      Store.get root path = .error .Io) := by
  constructor
  · intro h
    rw [store_get_eq, h]
  · intro cs h
    rw [store_get_eq, h]
    rfl

/-- Witness for C8: a missing path is NotFound; the internal node `a`
is an I/O error. -/
theorem c8_get_errors_witness :
    Store.get c8Store "zzz" = .error (.NotFound "zzz") ∧
    Store.get c8Store "a" = .error .Io :=
  ⟨(c8_get_errors c8Store "zzz").1 rfl,
   (c8_get_errors c8Store "a").2 [("b", .file "x\n\n")] rfl⟩

/-- C9 counterexample: deleting the last of three records with
selection 2 (and an empty query) leaves two records; the claim says
selection is decremented to 1 (the new last entry), but the filter
recomputation inside the handler already reset it to 0, so it ends at
0, not 1. -/
theorem c9_selection_reset_not_decremented :
    c9App.selected = 2 ∧
    (c9App.delete_selected_command c9Store).1.filtered.length = 2 ∧
    (c9App.delete_selected_command c9Store).1.selected = 0 :=
  ⟨rfl, rfl, rfl⟩

theorem decr_branch_skip (b : App) (k : Nat)
    (hsel : b.selected = if b.filtered.length ≤ k then 0 else k) :
    (if b.filtered.length ≤ b.selected && 0 < b.selected
     then { b with selected := b.selected - 1 } else b) = b := by
  by_cases hk : b.filtered.length ≤ k
  · rw [if_pos hk] at hsel
    have hcond : ¬ ((decide (b.filtered.length ≤ b.selected) && decide (0 < b.selected)) = true) := by
      rw [hsel]
      simp
    rw [if_neg hcond]
  · rw [if_neg hk] at hsel
    have hcond : ¬ ((decide (b.filtered.length ≤ b.selected) && decide (0 < b.selected)) = true) := by
      rw [hsel]
      simp [hk]
    rw [if_neg hcond]

/-- C9 amended: on a successful delete, the record is removed from the
in-memory list, `filtered` is recomputed, and the mode returns to
Browse; the recomputation itself resets the selection to 0 whenever the
previous selection is out of bounds of the new list (otherwise it is
preserved), so the selection stays in bounds but lands on the first
entry; the explicit decrement branch that would move it to the new last
entry never fires. -/
theorem c9_delete_spec (a : App) (store : FsNode) (idx : Nat) (sc : Int) (store' : FsNode)
    (hsel : a.filtered.get? a.selected = some (idx, sc))
    (hrem : Store.remove store ((a.commands.get? idx).getD ⟨"", "", ""⟩).path = .ok store') :
    (a.delete_selected_command store).2 = store' ∧
    (a.delete_selected_command store).1.mode = .Normal ∧
    (a.delete_selected_command store).1.commands = a.commands.eraseIdx idx ∧
    (a.delete_selected_command store).1.selected
      = (if (({ a with commands := a.commands.eraseIdx idx }).update_filter).filtered.length
            ≤ a.selected then 0 else a.selected) := by
  have heq : a.delete_selected_command store
      = (let a1 := ({ a with commands := a.commands.eraseIdx idx }).update_filter
         let a2 := if a1.filtered.length ≤ a1.selected && 0 < a1.selected
                   then { a1 with selected := a1.selected - 1 } else a1
         ({ a2 with mode := .Normal, message := some ("Command deleted", false) }, store')) := by
    unfold App.delete_selected_command
    rw [hsel]
    show (match Store.remove store ((a.commands.get? idx).getD ⟨"", "", ""⟩).path with
      | .ok store2 =>
        (let a1 := ({ a with commands := a.commands.eraseIdx idx }).update_filter
         let a2 := if a1.filtered.length ≤ a1.selected && 0 < a1.selected
                   then { a1 with selected := a1.selected - 1 } else a1
         ({ a2 with mode := .Normal, message := some ("Command deleted", false) }, store2))
      | .error e =>
        ({ a with message := some (errMsg e, true), mode := .Normal }, store)) = _
    rw [hrem]
  rw [heq]
  have hsel1 : (({ a with commands := a.commands.eraseIdx idx }).update_filter).selected
      = (if (({ a with commands := a.commands.eraseIdx idx }).update_filter).filtered.length
            ≤ a.selected then 0 else a.selected) := rfl
  have hskip := decr_branch_skip (({ a with commands := a.commands.eraseIdx idx }).update_filter)
      a.selected hsel1
  dsimp only
  rw [hskip]
  exact ⟨rfl, rfl, rfl, hsel1⟩

/-- Witness for C9 at the concrete three-record picker: deleting the
last record succeeds, the mode returns to Browse, and the selection is
characterized by the out-of-bounds reset. -/
theorem c9_delete_spec_witness :
    (c9App.delete_selected_command c9Store).2
      = FsNode.dir [("a", .file "1\n\n"), ("b", .file "2\n\n")] ∧
    (c9App.delete_selected_command c9Store).1.mode = .Normal ∧
    (c9App.delete_selected_command c9Store).1.commands = c9Cmds.eraseIdx 2 ∧
    (c9App.delete_selected_command c9Store).1.selected
      = (if (({ c9App with commands := c9App.commands.eraseIdx 2 }).update_filter).filtered.length
            ≤ c9App.selected then 0 else c9App.selected) :=
  c9_delete_spec c9App c9Store 2 0
    (FsNode.dir [("a", .file "1\n\n"), ("b", .file "2\n\n")]) rfl rfl

/-- C10: The store itself performs no path validation: for every store
state and every path string — including the empty string, strings with
a leading separator, and strings containing the traversal segment
`..` — `get`, `add`, `remove` and `rename` never return the
InvalidPath error; the empty/leading-separator/`..` validation exists
only in the CLI `add` and `mv` handlers. -/
theorem c10_store_never_invalid_path :
    (∀ (root : FsNode) (path : String), isInvalidPathErr (Store.get root path) = false) ∧
    (∀ (root : FsNode) (cmd : Command) (ow : Bool),
      isInvalidPathErr (Store.add root cmd ow) = false) ∧
    (∀ (root : FsNode) (path : String), isInvalidPathErr (Store.remove root path) = false) ∧
    (∀ (root : FsNode) (src dst : String),
      isInvalidPathErr (Store.rename root src dst) = false) ∧
    (addPathRejected "" = true ∧ addPathRejected "/a" = true ∧ addPathRejected ".." = true ∧
     addPathRejected "a/../b" = true ∧ mvDstRejected "" = true ∧ mvDstRejected "/a" = true ∧
     mvDstRejected "a/../b" = true) := by
  refine ⟨?_, ?_, ?_, ?_, by decide, by decide, by decide, by decide, by decide, by decide,
    by decide⟩
  · intro root path
    rw [store_get_eq]
    cases getNode root (splitPath path) with
    | none => rfl
    | some node =>
      cases node with
      | file content => exact parse_no_invalid path content
      | dir cs => rfl
  · intro root cmd ow
    rw [store_add_eq]
    by_cases hcnd : (getNode root (splitPath cmd.path)).isSome && !ow
    · rw [if_pos hcnd]; rfl
    · rw [if_neg hcnd]
      cases createDirAll root (splitPath cmd.path).dropLast with
      | error e => rfl
      | ok root1 =>
        show isInvalidPathErr (match fsWrite root1 (splitPath cmd.path) cmd.to_file_content with
          | .error _ => Except.error CmdxError.Io
          | .ok root2 => Except.ok root2) = false
        cases fsWrite root1 (splitPath cmd.path) cmd.to_file_content with
        | error e => rfl
        | ok root2 => rfl
  · intro root path
    rw [store_remove_eq]
    by_cases hcnd : (getNode root (splitPath path)).isNone
    · rw [if_pos hcnd]; rfl
    · rw [if_neg hcnd]
      cases removeFileAt root (splitPath path) with
      | error e => rfl
      | ok root1 => rfl
  · intro root src dst
    rw [store_rename_eq]
    by_cases hs : (getNode root (splitPath src)).isNone
    · rw [if_pos hs]; rfl
    · rw [if_neg hs]
      by_cases hd : (getNode root (splitPath dst)).isSome
      · rw [if_pos hd]; rfl
      · rw [if_neg hd]
        cases createDirAll root (splitPath dst).dropLast with
        | error e => rfl
        | ok root1 =>
          show isInvalidPathErr (match fsRename root1 (splitPath src) (splitPath dst) with
            | .error _ => Except.error CmdxError.Io
            | .ok root2 => Except.ok (cleanupFrom root2 (splitPath src).dropLast)) = false
          cases fsRename root1 (splitPath src) (splitPath dst) with
          | error e => rfl
          | ok root2 => rfl
